import Mathlib

/-!
# Verification of the png-files chunk codec (src/png.rs)

A shallow embedding of `src/png.rs`. Byte buffers are `List Nat` whose
elements are below 256; machine integers are `Nat` with explicit bounds.
The third-party pieces are embedded as follows:

* `crc32fast::hash` / `Hasher` — the standard CRC-32 (ISO-HDLC) algorithm:
  bit-reflected polynomial `0xEDB88320`, initial value `0xFFFFFFFF`, final
  xor `0xFFFFFFFF`, processed bit by bit (`crc32` below).  Checked against
  the standard test vector `crc32 "123456789" = 0xCBF43926`.
* `bincode` v2 with `bincode::config::standard()` (as called by
  `Png::encode_file` / `Png::decode_file`) — little-endian, variable-length
  integer encoding: a length below 251 is one byte; otherwise a marker byte
  251 / 252 / 253 followed by the value as a 2- / 4- / 8-byte little-endian
  integer; a `&str` or byte sequence is its length followed by its bytes,
  and decoding a `&str` checks the bytes are valid UTF-8.
* `flate2` deflate compression / decompression — kept abstract: every
  definition that needs it takes an explicit `compress : List Nat → List Nat`
  or `decompress : List Nat → Option (List Nat)` argument, because the claims
  never depend on the byte layout of the deflate stream itself.
* `std::str::from_utf8` — the standard UTF-8 validity table
  (`isValidUtf8` below).
-/

namespace PngFiles

/-- All entries of a byte list are actual bytes. -/
@[reducible] def allBytes (l : List Nat) : Prop := ∀ x ∈ l, x < 256

/-- Big-endian 4-byte encoding of a `u32` value (`u32::to_be_bytes`). -/
def be32 (n : Nat) : List Nat :=
  [n / 16777216 % 256, n / 65536 % 256, n / 256 % 256, n % 256]

/-- Big-endian `u32` read from four bytes (`ReadBytesExt::read_u32::<BigEndian>`). -/
def readBE32 (b0 b1 b2 b3 : Nat) : Nat :=
  ((b0 * 256 + b1) * 256 + b2) * 256 + b3

/-- Little-endian encoding of `n % 256^k` on `k` bytes (used by bincode). -/
def leBytes : Nat → Nat → List Nat
  | 0, _ => []
  | k + 1, n => n % 256 :: leBytes k (n / 256)

/-- Value of a little-endian byte list. -/
def leVal : List Nat → Nat
  | [] => 0
  | b :: r => b + 256 * leVal r

/-! ## CRC-32 (crc32fast) -/

/-- The bit-reflected CRC-32 polynomial. -/
def crcPoly : Nat := 0xEDB88320

/-- One bit of the CRC-32 computation: shift right, conditionally xor the
polynomial (the inner loop of the standard bitwise CRC-32). -/
def crcStep (c : Nat) : Nat :=
  (c / 2) ^^^ (if c % 2 = 1 then crcPoly else 0)

/-- Eight CRC bit steps. -/
def crcStep8 (c : Nat) : Nat :=
  crcStep (crcStep (crcStep (crcStep (crcStep (crcStep (crcStep (crcStep c)))))))

/-- Absorb one byte into the running CRC state. -/
def crcByte (c b : Nat) : Nat := crcStep8 (c ^^^ b)

/-- Absorb a byte list into the running CRC state (`Hasher::update`). -/
def crcUpdate (c : Nat) (l : List Nat) : Nat := l.foldl crcByte c

/-- CRC-32 of a byte list (`crc32fast::hash`): initial state `0xFFFFFFFF`,
final xor `0xFFFFFFFF`. -/
def crc32 (l : List Nat) : Nat := crcUpdate 0xFFFFFFFF l ^^^ 0xFFFFFFFF

/-- Inverse of one CRC bit step (exists because the polynomial has its top
bit set). -/
def crcUnstep (d : Nat) : Nat :=
  if d.testBit 31 then 2 * (d ^^^ crcPoly) + 1 else 2 * d

/-! ## UTF-8 validity (std::str::from_utf8) -/

/-- A UTF-8 continuation byte: `0x80 ≤ b ≤ 0xBF`. -/
def isCont (b : Nat) : Bool := b / 64 == 2

/-- Range test `lo ≤ b ≤ hi`. -/
def inRange (lo hi b : Nat) : Bool := decide (lo ≤ b ∧ b ≤ hi)

/-- A valid 2-byte UTF-8 sequence lead: `C2..DF` followed by a continuation
byte. -/
def utf8Lead2 (b c1 : Nat) : Bool :=
  (194 ≤ b && b < 224) && isCont c1

/-- The second byte of a 3-byte sequence: `E0` requires `A0..BF`, `ED`
requires `80..9F` (no overlongs, no surrogates), otherwise a continuation. -/
def utf8First3 (b c1 : Nat) : Bool :=
  if b == 224 then inRange 160 191 c1
  else if b == 237 then inRange 128 159 c1
  else isCont c1

/-- A valid 3-byte UTF-8 sequence lead: `E0..EF` with its second-byte rule
and a continuation third byte. -/
def utf8Lead3 (b c1 c2 : Nat) : Bool :=
  (224 ≤ b && b < 240) && utf8First3 b c1 && isCont c2

/-- The second byte of a 4-byte sequence: `F0` requires `90..BF`, `F4`
requires `80..8F` (no overlongs, nothing above `U+10FFFF`), otherwise a
continuation. -/
def utf8First4 (b c1 : Nat) : Bool :=
  if b == 240 then inRange 144 191 c1
  else if b == 244 then inRange 128 143 c1
  else isCont c1

/-- A valid 4-byte UTF-8 sequence lead: `F0..F4` with its second-byte rule
and continuation third and fourth bytes. -/
def utf8Lead4 (b c1 c2 c3 : Nat) : Bool :=
  (240 ≤ b && b < 245) && utf8First4 b c1 && isCont c2 && isCont c3

/-- UTF-8 validity of a byte list, mirroring the table used by
`std::str::from_utf8`: ASCII; 2-byte `C2..DF`; 3-byte `E0 A0..BF`,
`E1..EC 80..BF`, `ED 80..9F`, `EE..EF 80..BF`; 4-byte `F0 90..BF`,
`F1..F3 80..BF`, `F4 80..8F`; each lead byte followed by the prescribed
continuation bytes.  The list patterns are flattened to the lookahead the
table needs; a suffix too short for its lead byte is invalid. -/
def isValidUtf8 : List Nat → Bool
  | [] => true
  | [b] => decide (b < 128)
  | [b, c1] =>
    if b < 128 then isValidUtf8 [c1]
    else utf8Lead2 b c1
  | [b, c1, c2] =>
    if b < 128 then isValidUtf8 [c1, c2]
    else if b < 224 then utf8Lead2 b c1 && isValidUtf8 [c2]
    else utf8Lead3 b c1 c2
  | b :: c1 :: c2 :: c3 :: r =>
    if b < 128 then isValidUtf8 (c1 :: c2 :: c3 :: r)
    else if b < 224 then utf8Lead2 b c1 && isValidUtf8 (c2 :: c3 :: r)
    else if b < 240 then utf8Lead3 b c1 c2 && isValidUtf8 (c3 :: r)
    else utf8Lead4 b c1 c2 c3 && isValidUtf8 r

/-! ## bincode v2 `standard()` variable-length integers -/

/-- bincode varint encoding of an unsigned value (`usize` is encoded as
`u64`; values of a Rust `usize` are below `2^64`). -/
def varintEnc (n : Nat) : List Nat :=
  if n < 251 then [n]
  else if n < 65536 then 251 :: leBytes 2 n
  else if n < 4294967296 then 252 :: leBytes 4 n
  else 253 :: leBytes 8 n

/-- bincode varint decoding: returns the value and the unread remainder. -/
def varintDec : List Nat → Option (Nat × List Nat)
  | [] => none
  | b :: r =>
    if b < 251 then some (b, r)
    else if b = 251 then
      if 2 ≤ r.length then some (leVal (r.take 2), r.drop 2) else none
    else if b = 252 then
      if 4 ≤ r.length then some (leVal (r.take 4), r.drop 4) else none
    else if b = 253 then
      if 8 ≤ r.length then some (leVal (r.take 8), r.drop 8) else none
    else none

/-! ## File record codec (`File`, `Png::encode_file`, `Png::decode_file`) -/

/-- Embeds `Png::decode_file`: bincode-decode a `File { key: &str, data: Cow<[u8]> }`
from a chunk payload.  Returns the key and the still-deflate-compressed data.
Trailing bytes after the record are ignored, as in
`let (file, _) = bincode::borrow_decode_from_slice(...)`. -/
def decodeFile (l : List Nat) : Option (List Nat × List Nat) :=
  (varintDec l).bind fun p =>
    if p.1 ≤ p.2.length then
      if isValidUtf8 (p.2.take p.1) then
        (varintDec (p.2.drop p.1)).bind fun q =>
          if q.1 ≤ q.2.length then some (p.2.take p.1, q.2.take q.1) else none
      else none
    else none

/-- Embeds `Png::encode_file`: deflate-compress the data (`compress` stands for the
`flate2` deflate encoder at `Compression::best()`), then bincode-encode
`File { key, data: compressed }`. -/
def encodeFile (compress : List Nat → List Nat) (key data : List Nat) : List Nat :=
  varintEnc key.length ++ key ++ varintEnc (compress data).length ++ compress data

/-! ## Chunk and container model (`PngChunk`, `ChunkType`, `Png`) -/

/-- The reserved custom chunk tag `"fiLe"` (`CHUNK_TYPE`). -/
def fiLeTag : List Nat := [102, 105, 76, 101]

/-- The 8-byte PNG magic signature (`PNG_HEADER`). -/
def pngHeader : List Nat := [0x89, 0x50, 0x4E, 0x47, 0x0D, 0x0A, 0x1A, 0x0A]

/-- Embeds `ChunkType`: a passthrough chunk carrying its 4-byte tag, or the reserved
file chunk carrying its decoded key.  (`ChunkType::Png` is only ever
constructed with a tag different from `"fiLe"`.) -/
inductive ChunkType where
  | png (tag : List Nat)
  | file (key : List Nat)
  deriving DecidableEq, Repr

/-- Embeds `ChunkType::as_bytes` — the wire tag. -/
def ChunkType.tagBytes : ChunkType → List Nat
  | .png t => t
  | .file _ => fiLeTag

/-- A parsed chunk: its type, stored payload bytes, stored CRC and stored
declared length.  The Rust `DataSource` (shared backing buffer vs. owned
buffer) is an ownership optimisation; both sides present the same byte view
(`PngChunk::as_data`), which is what `data` holds. -/
structure PngChunk where
  chunkType : ChunkType
  data : List Nat
  crc : Nat
  len : Nat
  deriving DecidableEq, Repr

/-- The in-memory container (`Png`): chunk sequence plus the size hint used
to preallocate the output buffer. -/
structure Png where
  chunks : List PngChunk
  capacity : Nat
  deriving DecidableEq, Repr

/-- The error cases of `src/png.rs`, one constructor per distinct failure
site of `PngFilesError` as raised in `Png::new` / `Png::insert_file`. -/
inductive PngError where
  /-- reading the 8 signature bytes failed (buffer shorter than 8) -/
  | headerIncomplete
  /-- "Input file is not PNG format" -/
  | notPng
  /-- "Failed to read len" -/
  | readLen
  /-- "Invalid chunk (type or data missing)" -/
  | chunkOOB
  /-- "Invalid chunk type" (tag is not valid UTF-8) -/
  | invalidChunkType
  /-- "Failed to read crc" -/
  | readCrc
  /-- "Crc check failed; PNG file is corrupted" -/
  | crcMismatch
  /-- bincode decode error from `Png::decode_file` -/
  | decodeFailed
  /-- "Key already in use" -/
  | duplicateKey
  /-- "Data cannot be bigger than u32::MAX bytes" -/
  | sizeLimit
  deriving DecidableEq, Repr

/-- One iteration of the parse loop in `Png::new`: read the 4-byte big-endian
length, check the `tag ++ payload` slice is in bounds, hash it, read and
UTF-8-check the tag, read the stored CRC, compare, and for a `"fiLe"` tag
bincode-decode the payload.  Returns the chunk and the unread remainder.
The source's remaining error paths are infallible and have no constructor
here: the `u32 -> usize` conversions cannot fail on a 64-bit target, the
4-byte tag read and the `"fiLe"` data slice are covered by the earlier
bounds check on `tag ++ payload`, and the seek past the payload stays in
range for the same reason. -/
def readChunk : List Nat → Except PngError (PngChunk × List Nat)
  | b0 :: b1 :: b2 :: b3 :: rest =>
    if 4 + readBE32 b0 b1 b2 b3 ≤ rest.length then
      if isValidUtf8 (rest.take 4) then
        match rest.drop (4 + readBE32 b0 b1 b2 b3) with
        | c0 :: c1 :: c2 :: c3 :: rest2 =>
          if crc32 (rest.take (4 + readBE32 b0 b1 b2 b3)) = readBE32 c0 c1 c2 c3 then
            if rest.take 4 = fiLeTag then
              match decodeFile ((rest.drop 4).take (readBE32 b0 b1 b2 b3)) with
              | some (key, _) =>
                .ok (⟨.file key, (rest.drop 4).take (readBE32 b0 b1 b2 b3),
                  readBE32 c0 c1 c2 c3, readBE32 b0 b1 b2 b3⟩, rest2)
              | none => .error .decodeFailed
            else
              .ok (⟨.png (rest.take 4), (rest.drop 4).take (readBE32 b0 b1 b2 b3),
                readBE32 c0 c1 c2 c3, readBE32 b0 b1 b2 b3⟩, rest2)
          else .error .crcMismatch
        | _ => .error .readCrc
      else .error .invalidChunkType
    else .error .chunkOOB
  | _ => .error .readLen

/-- The parse loop of `Png::new`, with an explicit fuel (any fuel at least
the buffer length gives the loop's semantics; `parseChunks` supplies it). -/
def parseChunksGo : Nat → List Nat → Except PngError (List PngChunk)
  | _, [] => .ok []
  | 0, _ :: _ => .error .readLen
  | fuel + 1, b :: bs =>
    match readChunk (b :: bs) with
    | .error e => .error e
    | .ok (c, rest2) =>
      match parseChunksGo fuel rest2 with
      | .error e => .error e
      | .ok cs => .ok (c :: cs)

/-- The parse loop of `Png::new` over the bytes after the signature. -/
def parseChunks (buf : List Nat) : Except PngError (List PngChunk) :=
  parseChunksGo buf.length buf

/-- Embeds `Png::new`: validate the 8-byte signature, then parse the chunk stream;
the capacity hint is the input length. -/
def parse (b : List Nat) : Except PngError Png :=
  if b.length < 8 then .error .headerIncomplete
  else if b.take 8 ≠ pngHeader then .error .notPng
  else
    match parseChunks (b.drop 8) with
    | .error e => .error e
    | .ok cs => .ok ⟨cs, b.length⟩

/-- Embeds `PngChunk::into_bytes`: stored length (big-endian), tag, payload,
stored CRC (big-endian). -/
def chunkBytes (c : PngChunk) : List Nat :=
  be32 c.len ++ c.chunkType.tagBytes ++ c.data ++ be32 c.crc

/-- Serialization of a chunk sequence. -/
def chunksBytes : List PngChunk → List Nat
  | [] => []
  | c :: cs => chunkBytes c ++ chunksBytes cs

/-- Embeds `Png::into_bytes`: signature followed by every chunk in sequence order. -/
def intoBytes (p : Png) : List Nat := pngHeader ++ chunksBytes p.chunks

/-- The chunk-selection predicate shared by `get_file`, `remove_file` and
`insert_file`: the chunk's tag is `"fiLe"` and its key equals `key`. -/
def isFileWithKey (key : List Nat) (c : PngChunk) : Bool :=
  match c.chunkType with
  | .file k => k == key
  | .png _ => false

/-- Embeds `Png::get_file`: find the first file chunk with the key, bincode-decode
its payload and inflate the embedded data (`decompress` stands for the
`flate2` deflate decoder); any failure becomes `none`. -/
def getFile (decompress : List Nat → Option (List Nat)) (p : Png)
    (key : List Nat) : Option (List Nat) :=
  match p.chunks.find? (isFileWithKey key) with
  | none => none
  | some c =>
    match decodeFile c.data with
    | none => none
    | some (_, d) => decompress d

/-- Embeds `Iterator::position`: index of the first element satisfying the
predicate. -/
def posOf (p : α → Bool) : List α → Option Nat
  | [] => none
  | a :: l => if p a then some 0 else (posOf p l).map (· + 1)

/-- Embeds `Png::remove_file`: remove the first file chunk with the key, returning
whether one was removed, together with the resulting container. -/
def removeFile (p : Png) (key : List Nat) : Bool × Png :=
  match posOf (isFileWithKey key) p.chunks with
  | some i => (true, ⟨p.chunks.eraseIdx i, p.capacity⟩)
  | none => (false, p)

/-- The chunk built by `Png::insert_file` for `key` and `data`. -/
def insChunk (compress : List Nat → List Nat) (key data : List Nat) : PngChunk :=
  ⟨.file key, encodeFile compress key data,
    crc32 (fiLeTag ++ encodeFile compress key data),
    (encodeFile compress key data).length⟩

/-- Embeds `Png::insert_file`: scan for an existing file chunk with the key; fail
with `duplicateKey` when one exists and `replace` is false; encode the file
record, compute its CRC over `"fiLe" ++ payload`, fail with `sizeLimit` when
the payload exceeds `u32::MAX` bytes; otherwise append the new chunk, or
replace the first matching chunk in place.  The returned container is the
state of `self` after the call (unchanged on error, as in the source, where
every error precedes the mutation). -/
def insertFile (compress : List Nat → List Nat) (p : Png) (key data : List Nat)
    (replace : Bool) : Except PngError Unit × Png :=
  let idx := posOf (isFileWithKey key) p.chunks
  if replace = false ∧ idx.isSome then (.error .duplicateKey, p)
  else
    let enc := encodeFile compress key data
    if enc.length > 4294967295 then (.error .sizeLimit, p)
    else
      match idx with
      | none => (.ok (), ⟨p.chunks ++ [insChunk compress key data], p.capacity⟩)
      | some i => (.ok (), ⟨p.chunks.set i (insChunk compress key data), p.capacity⟩)

/-! ## Well-formed chunks

The invariant every chunk of a parsed container satisfies, and that
`insert_file` re-establishes for the chunks it creates. -/

/-- Chunk invariant: the stored length is the payload length and fits in a
`u32`; the stored CRC is CRC-32 of `tag ++ payload` and fits in a `u32`; the
tag is 4 valid-UTF-8 bytes; the payload is made of bytes; a passthrough
chunk's tag is not `"fiLe"`, and a file chunk's payload bincode-decodes to
its key. -/
structure ChunkWF (c : PngChunk) : Prop where
  len_eq : c.len = c.data.length
  len_lt : c.len < 4294967296
  crc_eq : c.crc = crc32 (c.chunkType.tagBytes ++ c.data)
  crc_lt : c.crc < 4294967296
  tag_len : c.chunkType.tagBytes.length = 4
  tag_utf8 : isValidUtf8 c.chunkType.tagBytes = true
  data_bytes : allBytes c.data
  kind_ok : match c.chunkType with
    | .png t => t ≠ fiLeTag
    | .file key => ∃ d, decodeFile c.data = some (key, d)

/-- Container invariant: every chunk is well formed. -/
def PngWF (p : Png) : Prop := ∀ c ∈ p.chunks, ChunkWF c

/-- At most one file chunk per key. -/
def uniqueKeys (p : Png) : Prop :=
  ∀ k : List Nat, p.chunks.countP (isFileWithKey k) ≤ 1

/-- A single-bit flip somewhere in a byte string: an 8-bit position `j` in
one byte is toggled. -/
def OneBitFlip (l l2 : List Nat) : Prop :=
  ∃ q b j s, j < 8 ∧ l = q ++ b :: s ∧ l2 = q ++ (b ^^^ 2 ^ j) :: s

/-- The FileRecord chunk payload layout as the spec document words it
(section 6): `key_len:u32 | key_bytes | data_len:u32 |
deflate_compressed_data`, with the two lengths as fixed 4-byte big-endian
integers.  Stated only to be compared against `encodeFile`, which embeds
what the code actually produces via bincode. -/
def specRecordLayout (compress : List Nat → List Nat) (key data : List Nat) :
    List Nat :=
  be32 key.length ++ key ++ be32 (compress data).length ++ compress data

/-! ## Concrete test fixtures

A `"fiLe"` chunk with key `"a"` (`[97]`) and empty embedded data: its
payload is `[1, 97, 0]` (bincode: key length 1, byte `97`, data length 0),
and `crc32 ("fiLe" ++ [1, 97, 0]) = 3056499355`.  An `"IHDR"` passthrough
chunk with empty payload has `crc32 "IHDR" = 2829168138`. -/

/-- The file chunk of `bufA`. -/
def fcA : PngChunk := ⟨.file [97], [1, 97, 0], 3056499355, 3⟩

/-- Signature plus one `"fiLe"` chunk (23 bytes). -/
def bufA : List Nat :=
  [137, 80, 78, 71, 13, 10, 26, 10,
   0, 0, 0, 3, 102, 105, 76, 101, 1, 97, 0, 182, 46, 122, 155]

/-- The container parsed from `bufA`. -/
def pngA : Png := ⟨[fcA], 23⟩

/-- Signature plus one empty `"IHDR"` chunk (20 bytes). -/
def buf1 : List Nat :=
  [137, 80, 78, 71, 13, 10, 26, 10,
   0, 0, 0, 0, 73, 72, 68, 82, 168, 161, 174, 10]

/-- The container parsed from `buf1`. -/
def png1 : Png := ⟨[⟨.png [73, 72, 68, 82], [], 2829168138, 0⟩], 20⟩

/-- Signature plus the same `"fiLe"` chunk twice: duplicate keys, which the
reader tolerates. -/
def bufDup : List Nat :=
  [137, 80, 78, 71, 13, 10, 26, 10,
   0, 0, 0, 3, 102, 105, 76, 101, 1, 97, 0, 182, 46, 122, 155,
   0, 0, 0, 3, 102, 105, 76, 101, 1, 97, 0, 182, 46, 122, 155]

/-- The container parsed from `bufDup` (two file chunks with key `"a"`). -/
def dupPng : Png := ⟨[fcA, fcA], 38⟩

/-- A compressor whose output exceeds the `u32` length range, for the size
limit boundary. -/
def bigCompress : List Nat → List Nat := fun _ => List.replicate 4294967296 0

/-- The identity compressor used to instantiate the abstract deflate pair in
witnesses (`decompress = some` is its inverse). -/
def idCompress : List Nat → List Nat := fun l => l

/-- The inverse of `idCompress`. -/
def idDecompress : List Nat → Option (List Nat) := fun l => some l

/-! ## Byte-level arithmetic lemmas -/

theorem readBE32_lt {b0 b1 b2 b3 : Nat} (h0 : b0 < 256) (h1 : b1 < 256)
    (h2 : b2 < 256) (h3 : b3 < 256) : readBE32 b0 b1 b2 b3 < 4294967296 := by
  unfold readBE32; omega

theorem be32_readBE32 {b0 b1 b2 b3 : Nat} (h0 : b0 < 256) (h1 : b1 < 256)
    (h2 : b2 < 256) (h3 : b3 < 256) :
    be32 (readBE32 b0 b1 b2 b3) = [b0, b1, b2, b3] := by
  unfold be32 readBE32
  congr 1 <;> [skip; congr 1] <;> [omega; skip; congr 1] <;> [omega; skip; congr 1]
    <;> omega

theorem readBE32_be32 {n : Nat} (h : n < 4294967296) :
    readBE32 (n / 16777216 % 256) (n / 65536 % 256) (n / 256 % 256) (n % 256) = n := by
  unfold readBE32; omega

theorem be32_bytes (n : Nat) : allBytes (be32 n) := by
  intro x hx
  unfold be32 at hx
  simp only [List.mem_cons, List.not_mem_nil, or_false] at hx
  rcases hx with h | h | h | h <;> subst h <;> omega

theorem length_be32 (n : Nat) : (be32 n).length = 4 := rfl

/-! ## CRC-32 lemmas: state bounds and injectivity of the state update -/

theorem xor_lt_32 {a b : Nat} (ha : a < 4294967296) (hb : b < 4294967296) :
    a ^^^ b < 4294967296 := by
  have hp : (4294967296 : Nat) = 2 ^ 32 := by norm_num
  rw [hp] at ha hb ⊢
  exact Nat.bitwise_lt ha hb

theorem crcStep_lt {c : Nat} (h : c < 4294967296) : crcStep c < 4294967296 := by
  unfold crcStep
  apply xor_lt_32 (by omega)
  split
  · norm_num [crcPoly]
  · omega

theorem crcUnstep_crcStep {c : Nat} (hc : c < 4294967296) :
    crcUnstep (crcStep c) = c := by
  have hpow : (2 : Nat) ^ 31 = 2147483648 := by norm_num
  rcases Nat.mod_two_eq_zero_or_one c with h | h
  · have hstep : crcStep c = c / 2 := by
      unfold crcStep
      rw [if_neg (by omega), Nat.xor_zero]
    have hbit : (c / 2).testBit 31 = false :=
      Nat.testBit_eq_false_of_lt (by omega)
    unfold crcUnstep
    rw [hstep, hbit]
    simp only [Bool.false_eq_true, if_false]
    omega
  · have hstep : crcStep c = c / 2 ^^^ crcPoly := by
      unfold crcStep
      rw [if_pos h]
    have hbit2 : (c / 2).testBit 31 = false :=
      Nat.testBit_eq_false_of_lt (by omega)
    have hbitp : (crcPoly).testBit 31 = true := by decide
    have hbit : (c / 2 ^^^ crcPoly).testBit 31 = true := by
      rw [Nat.testBit_xor, hbit2, hbitp]
      rfl
    unfold crcUnstep
    rw [hstep, hbit]
    simp only [if_true]
    rw [Nat.xor_cancel_right]
    omega

theorem crcStep_inj {c1 c2 : Nat} (h1 : c1 < 4294967296) (h2 : c2 < 4294967296)
    (h : crcStep c1 = crcStep c2) : c1 = c2 := by
  rw [← crcUnstep_crcStep h1, ← crcUnstep_crcStep h2, h]

theorem crcStep8_lt {c : Nat} (h : c < 4294967296) : crcStep8 c < 4294967296 := by
  unfold crcStep8
  exact crcStep_lt (crcStep_lt (crcStep_lt (crcStep_lt (crcStep_lt (crcStep_lt
    (crcStep_lt (crcStep_lt h)))))))

theorem crcStep8_inj {c1 c2 : Nat} (h1 : c1 < 4294967296) (h2 : c2 < 4294967296)
    (h : crcStep8 c1 = crcStep8 c2) : c1 = c2 := by
  unfold crcStep8 at h
  have l1 := crcStep_lt h1
  have l2 := crcStep_lt l1
  have l3 := crcStep_lt l2
  have l4 := crcStep_lt l3
  have l5 := crcStep_lt l4
  have l6 := crcStep_lt l5
  have l7 := crcStep_lt l6
  have r1 := crcStep_lt h2
  have r2 := crcStep_lt r1
  have r3 := crcStep_lt r2
  have r4 := crcStep_lt r3
  have r5 := crcStep_lt r4
  have r6 := crcStep_lt r5
  have r7 := crcStep_lt r6
  exact crcStep_inj h1 h2 (crcStep_inj l1 r1 (crcStep_inj l2 r2 (crcStep_inj l3 r3
    (crcStep_inj l4 r4 (crcStep_inj l5 r5 (crcStep_inj l6 r6 (crcStep_inj l7 r7 h)))))))

theorem crcByte_lt {c b : Nat} (hc : c < 4294967296) (hb : b < 4294967296) :
    crcByte c b < 4294967296 :=
  crcStep8_lt (xor_lt_32 hc hb)

theorem crcByte_inj_state {c1 c2 b : Nat} (h1 : c1 < 4294967296)
    (h2 : c2 < 4294967296) (hb : b < 4294967296) (hne : c1 ≠ c2) :
    crcByte c1 b ≠ crcByte c2 b := by
  intro h
  apply hne
  have hx := crcStep8_inj (xor_lt_32 h1 hb) (xor_lt_32 h2 hb) h
  exact Nat.xor_left_injective hx

theorem crcByte_inj_byte {c b1 b2 : Nat} (hc : c < 4294967296)
    (h1 : b1 < 4294967296) (h2 : b2 < 4294967296) (hne : b1 ≠ b2) :
    crcByte c b1 ≠ crcByte c b2 := by
  intro h
  apply hne
  have hx := crcStep8_inj (xor_lt_32 hc h1) (xor_lt_32 hc h2) h
  exact Nat.xor_right_injective hx

theorem crcUpdate_lt {c : Nat} {l : List Nat} (hc : c < 4294967296)
    (hl : allBytes l) : crcUpdate c l < 4294967296 := by
  induction l generalizing c with
  | nil => exact hc
  | cons b r ih =>
    have hb : b < 256 := hl b (by simp)
    exact ih (crcByte_lt hc (by omega)) (fun x hx => hl x (by simp [hx]))

theorem crcUpdate_ne {l : List Nat} {c1 c2 : Nat} (hl : allBytes l)
    (h1 : c1 < 4294967296) (h2 : c2 < 4294967296) (hne : c1 ≠ c2) :
    crcUpdate c1 l ≠ crcUpdate c2 l := by
  induction l generalizing c1 c2 with
  | nil => exact hne
  | cons b r ih =>
    have hb : b < 256 := hl b (by simp)
    exact ih (fun x hx => hl x (by simp [hx]))
      (crcByte_lt h1 (by omega)) (crcByte_lt h2 (by omega))
      (crcByte_inj_state h1 h2 (by omega) hne)

theorem crcUpdate_append (c : Nat) (l1 l2 : List Nat) :
    crcUpdate c (l1 ++ l2) = crcUpdate (crcUpdate c l1) l2 := by
  unfold crcUpdate
  rw [List.foldl_append]

/-- CRC-32 separates any two equal-length byte strings that differ in
exactly one byte position. -/
theorem crc32_ne_of_byte_change {p s : List Nat} {b1 b2 : Nat}
    (hp : allBytes p) (hs : allBytes s) (h1 : b1 < 256) (h2 : b2 < 256)
    (hne : b1 ≠ b2) : crc32 (p ++ b1 :: s) ≠ crc32 (p ++ b2 :: s) := by
  unfold crc32
  intro h
  have hbase : crcUpdate 0xFFFFFFFF p < 4294967296 :=
    crcUpdate_lt (by norm_num) hp
  have hmid : crcByte (crcUpdate 0xFFFFFFFF p) b1 ≠
      crcByte (crcUpdate 0xFFFFFFFF p) b2 :=
    crcByte_inj_byte hbase (by omega) (by omega) hne
  have htail : crcUpdate 0xFFFFFFFF (p ++ b1 :: s) ≠
      crcUpdate 0xFFFFFFFF (p ++ b2 :: s) := by
    rw [crcUpdate_append, crcUpdate_append]
    show crcUpdate (crcByte _ b1) s ≠ crcUpdate (crcByte _ b2) s
    exact crcUpdate_ne hs (crcByte_lt hbase (by omega))
      (crcByte_lt hbase (by omega)) hmid
  exact htail (Nat.xor_left_injective h)

theorem crc32_lt {l : List Nat} (hl : allBytes l) : crc32 l < 4294967296 :=
  xor_lt_32 (crcUpdate_lt (by norm_num) hl) (by norm_num)

set_option maxRecDepth 10000 in
/-- The standard CRC-32 check vector: the checksum of the ASCII string
`"123456789"` is `0xCBF43926`, pinning this embedding to the algorithm
`crc32fast` implements. -/
theorem crc32_check_vector :
    crc32 [49, 50, 51, 52, 53, 54, 55, 56, 57] = 0xCBF43926 := by decide

/-! ## UTF-8 lemmas -/

theorem isCont_lt {b : Nat} (h : isCont b = true) : b < 256 := by
  unfold isCont at h
  simp only [beq_iff_eq] at h
  omega

theorem inRange_le {lo hi b : Nat} (h : inRange lo hi b = true) : b ≤ hi := by
  unfold inRange at h
  simp only [decide_eq_true_eq] at h
  exact h.2

theorem utf8Lead2_lt {b c1 : Nat} (h : utf8Lead2 b c1 = true) :
    b < 256 ∧ c1 < 256 := by
  unfold utf8Lead2 at h
  simp only [Bool.and_eq_true, decide_eq_true_eq] at h
  have := isCont_lt h.2
  omega

theorem utf8First3_lt {b c1 : Nat} (h : utf8First3 b c1 = true) : c1 < 256 := by
  unfold utf8First3 at h
  split at h
  · have := inRange_le h; omega
  split at h
  · have := inRange_le h; omega
  · exact isCont_lt h

theorem utf8Lead3_lt {b c1 c2 : Nat} (h : utf8Lead3 b c1 c2 = true) :
    b < 256 ∧ c1 < 256 ∧ c2 < 256 := by
  unfold utf8Lead3 at h
  simp only [Bool.and_eq_true, decide_eq_true_eq] at h
  have h1 := utf8First3_lt h.1.2
  have h2 := isCont_lt h.2
  omega

theorem utf8First4_lt {b c1 : Nat} (h : utf8First4 b c1 = true) : c1 < 256 := by
  unfold utf8First4 at h
  split at h
  · have := inRange_le h; omega
  split at h
  · have := inRange_le h; omega
  · exact isCont_lt h

theorem utf8Lead4_lt {b c1 c2 c3 : Nat} (h : utf8Lead4 b c1 c2 c3 = true) :
    b < 256 ∧ c1 < 256 ∧ c2 < 256 ∧ c3 < 256 := by
  unfold utf8Lead4 at h
  simp only [Bool.and_eq_true, decide_eq_true_eq] at h
  have h1 := utf8First4_lt h.1.1.2
  have h2 := isCont_lt h.1.2
  have h3 := isCont_lt h.2
  omega

theorem utf8_bytes (l : List Nat) : isValidUtf8 l = true → allBytes l := by
  induction l using isValidUtf8.induct with
  | case1 => intro _ x hx; exact absurd hx (List.not_mem_nil x)
  | case2 b =>
    intro h x hx
    rw [isValidUtf8] at h
    simp only [decide_eq_true_eq] at h
    simp only [List.mem_singleton] at hx
    omega
  | case3 b c1 hb ih =>
    intro h x hx
    rw [isValidUtf8, if_pos hb] at h
    rcases List.mem_cons.mp hx with hx | hx
    · omega
    · exact ih h x hx
  | case4 b c1 hb =>
    intro h x hx
    rw [isValidUtf8, if_neg hb] at h
    have hlt := utf8Lead2_lt h
    simp only [List.mem_cons, List.not_mem_nil, or_false] at hx
    rcases hx with hx | hx <;> omega
  | case5 b c1 c2 hb ih =>
    intro h x hx
    rw [isValidUtf8, if_pos hb] at h
    rcases List.mem_cons.mp hx with hx | hx
    · omega
    · exact ih h x hx
  | case6 b c1 c2 hb hb2 ih =>
    intro h x hx
    rw [isValidUtf8, if_neg hb, if_pos hb2] at h
    simp only [Bool.and_eq_true] at h
    have hlt := utf8Lead2_lt h.1
    rcases List.mem_cons.mp hx with hx | hx
    · omega
    rcases List.mem_cons.mp hx with hx | hx
    · omega
    · exact ih h.2 x hx
  | case7 b c1 c2 hb hb2 =>
    intro h x hx
    rw [isValidUtf8, if_neg hb, if_neg hb2] at h
    have hlt := utf8Lead3_lt h
    simp only [List.mem_cons, List.not_mem_nil, or_false] at hx
    rcases hx with hx | hx | hx <;> omega
  | case8 b c1 c2 c3 r hb ih =>
    intro h x hx
    rw [isValidUtf8, if_pos hb] at h
    rcases List.mem_cons.mp hx with hx | hx
    · omega
    · exact ih h x hx
  | case9 b c1 c2 c3 r hb hb2 ih =>
    intro h x hx
    rw [isValidUtf8, if_neg hb, if_pos hb2] at h
    simp only [Bool.and_eq_true] at h
    have hlt := utf8Lead2_lt h.1
    rcases List.mem_cons.mp hx with hx | hx
    · omega
    rcases List.mem_cons.mp hx with hx | hx
    · omega
    · exact ih h.2 x hx
  | case10 b c1 c2 c3 r hb hb2 hb3 ih =>
    intro h x hx
    rw [isValidUtf8, if_neg hb, if_neg hb2, if_pos hb3] at h
    simp only [Bool.and_eq_true] at h
    have hlt := utf8Lead3_lt h.1
    rcases List.mem_cons.mp hx with hx | hx
    · omega
    rcases List.mem_cons.mp hx with hx | hx
    · omega
    rcases List.mem_cons.mp hx with hx | hx
    · omega
    · exact ih h.2 x hx
  | case11 b c1 c2 c3 r hb hb2 hb3 ih =>
    intro h x hx
    rw [isValidUtf8, if_neg hb, if_neg hb2, if_neg hb3] at h
    simp only [Bool.and_eq_true] at h
    have hlt := utf8Lead4_lt h.1
    rcases List.mem_cons.mp hx with hx | hx
    · omega
    rcases List.mem_cons.mp hx with hx | hx
    · omega
    rcases List.mem_cons.mp hx with hx | hx
    · omega
    rcases List.mem_cons.mp hx with hx | hx
    · omega
    · exact ih h.2 x hx

/-! ## Little-endian and varint lemmas -/

theorem length_leBytes (k n : Nat) : (leBytes k n).length = k := by
  induction k generalizing n with
  | zero => rfl
  | succ k ih => simp [leBytes, ih]

theorem leBytes_bytes (k n : Nat) : allBytes (leBytes k n) := by
  induction k generalizing n with
  | zero => intro x hx; simp [leBytes] at hx
  | succ k ih =>
    intro x hx
    simp only [leBytes, List.mem_cons] at hx
    rcases hx with hx | hx
    · omega
    · exact ih (n / 256) x hx

theorem leVal_leBytes {k n : Nat} (h : n < 256 ^ k) : leVal (leBytes k n) = n := by
  induction k generalizing n with
  | zero =>
    simp only [pow_zero, Nat.lt_one_iff] at h
    subst h; rfl
  | succ k ih =>
    have hd : n / 256 < 256 ^ k := by
      rw [Nat.div_lt_iff_lt_mul (by norm_num)]
      calc n < 256 ^ (k + 1) := h
        _ = 256 ^ k * 256 := by rw [pow_succ]
    show leVal (n % 256 :: leBytes k (n / 256)) = n
    simp only [leVal, ih hd]
    omega

theorem varintEnc_bytes (n : Nat) : allBytes (varintEnc n) := by
  unfold varintEnc
  split
  · intro x hx; simp only [List.mem_singleton] at hx; omega
  split
  · intro x hx
    rcases List.mem_cons.mp hx with hx | hx
    · omega
    · exact leBytes_bytes 2 n x hx
  split
  · intro x hx
    rcases List.mem_cons.mp hx with hx | hx
    · omega
    · exact leBytes_bytes 4 n x hx
  · intro x hx
    rcases List.mem_cons.mp hx with hx | hx
    · omega
    · exact leBytes_bytes 8 n x hx

theorem varintDec_leBytes {k n : Nat} (hn : n < 256 ^ k) (rest : List Nat) :
    (if k ≤ (leBytes k n ++ rest).length
      then some (leVal ((leBytes k n ++ rest).take k), (leBytes k n ++ rest).drop k)
      else none) = some (n, rest) := by
  have hlen : (leBytes k n).length = k := length_leBytes k n
  rw [if_pos (by simp [hlen]), List.take_left' hlen, List.drop_left' hlen,
    leVal_leBytes hn]

theorem varintDec_enc {n : Nat} (h : n < 18446744073709551616) (rest : List Nat) :
    varintDec (varintEnc n ++ rest) = some (n, rest) := by
  unfold varintEnc
  by_cases h1 : n < 251
  · rw [if_pos h1]
    show varintDec (n :: rest) = some (n, rest)
    rw [varintDec, if_pos h1]
  rw [if_neg h1]
  by_cases h2 : n < 65536
  · rw [if_pos h2]
    show varintDec (251 :: (leBytes 2 n ++ rest)) = some (n, rest)
    rw [varintDec, if_neg (by omega), if_pos rfl]
    exact varintDec_leBytes (by norm_num; omega) rest
  rw [if_neg h2]
  by_cases h3 : n < 4294967296
  · rw [if_pos h3]
    show varintDec (252 :: (leBytes 4 n ++ rest)) = some (n, rest)
    rw [varintDec, if_neg (by omega), if_neg (by omega), if_pos rfl]
    exact varintDec_leBytes (by norm_num; omega) rest
  · rw [if_neg h3]
    show varintDec (253 :: (leBytes 8 n ++ rest)) = some (n, rest)
    rw [varintDec, if_neg (by omega), if_neg (by omega), if_neg (by omega), if_pos rfl]
    exact varintDec_leBytes (by norm_num; omega) rest

/-! ## File record codec round trip -/

theorem decodeFile_encodeFile {compress : List Nat → List Nat} {key data : List Nat}
    (hkey : isValidUtf8 key = true)
    (hklen : key.length < 18446744073709551616)
    (hdlen : (compress data).length < 18446744073709551616) :
    decodeFile (encodeFile compress key data) = some (key, compress data) := by
  unfold encodeFile decodeFile
  simp only [List.append_assoc]
  rw [varintDec_enc hklen]
  simp only [Option.some_bind]
  rw [if_pos (by simp), List.take_left, if_pos hkey, List.drop_left,
    varintDec_enc hdlen]
  simp only [Option.some_bind]
  rw [if_pos (Nat.le_refl _), List.take_length]

/-! ## Reading one chunk: soundness and completeness -/

theorem length_chunkBytes {c : PngChunk} (h4 : c.chunkType.tagBytes.length = 4) :
    (chunkBytes c).length = c.data.length + 12 := by
  simp [chunkBytes, h4, length_be32]
  omega

theorem readChunk_ok {buf : List Nat} {c : PngChunk} {rest2 : List Nat}
    (hb : allBytes buf) (h : readChunk buf = .ok (c, rest2)) :
    ChunkWF c ∧ buf = chunkBytes c ++ rest2 := by
  rcases buf with _ | ⟨b0, _ | ⟨b1, _ | ⟨b2, _ | ⟨b3, rest⟩⟩⟩⟩
  · exact Except.noConfusion h
  · exact Except.noConfusion h
  · exact Except.noConfusion h
  · exact Except.noConfusion h
  have hb0 : b0 < 256 := hb b0 (by simp)
  have hb1 : b1 < 256 := hb b1 (by simp)
  have hb2 : b2 < 256 := hb b2 (by simp)
  have hb3 : b3 < 256 := hb b3 (by simp)
  have hrest : allBytes rest := fun x hx => hb x (by simp [hx])
  rw [readChunk] at h
  split at h
  case isFalse => exact Except.noConfusion h
  case isTrue hle =>
    split at h
    case isFalse => exact Except.noConfusion h
    case isTrue hutf =>
      split at h
      case h_2 => exact Except.noConfusion h
      case h_1 x k0 k1 k2 k3 r2 heq =>
        have hk0 : k0 < 256 := hrest k0 (by
          have : k0 ∈ rest.drop (4 + readBE32 b0 b1 b2 b3) := by rw [heq]; simp
          exact List.mem_of_mem_drop this)
        have hk1 : k1 < 256 := hrest k1 (by
          have : k1 ∈ rest.drop (4 + readBE32 b0 b1 b2 b3) := by rw [heq]; simp
          exact List.mem_of_mem_drop this)
        have hk2 : k2 < 256 := hrest k2 (by
          have : k2 ∈ rest.drop (4 + readBE32 b0 b1 b2 b3) := by rw [heq]; simp
          exact List.mem_of_mem_drop this)
        have hk3 : k3 < 256 := hrest k3 (by
          have : k3 ∈ rest.drop (4 + readBE32 b0 b1 b2 b3) := by rw [heq]; simp
          exact List.mem_of_mem_drop this)
        -- shared facts about the slices
        have htaglen : (rest.take 4).length = 4 :=
          List.length_take_of_le (by omega)
        have hdatalen : ((rest.drop 4).take (readBE32 b0 b1 b2 b3)).length
            = readBE32 b0 b1 b2 b3 := by
          rw [List.length_take, List.length_drop]
          omega
        have hdatabytes : allBytes ((rest.drop 4).take (readBE32 b0 b1 b2 b3)) :=
          fun x hx => hrest x (List.mem_of_mem_drop (List.mem_of_mem_take hx))
        have htagbytes : allBytes (rest.take 4) :=
          fun x hx => hrest x (List.mem_of_mem_take hx)
        have htagdata : rest.take 4 ++ (rest.drop 4).take (readBE32 b0 b1 b2 b3)
            = rest.take (4 + readBE32 b0 b1 b2 b3) := by
          rw [List.take_add]
        -- the whole buffer decomposes around the chunk
        have hsplit : rest = rest.take (4 + readBE32 b0 b1 b2 b3)
            ++ (k0 :: k1 :: k2 :: k3 :: r2) := by
          rw [← heq, List.take_append_drop]
        split at h
        case isFalse => exact Except.noConfusion h
        case isTrue hcrc =>
          have hcrcval : readBE32 k0 k1 k2 k3 < 4294967296 :=
            readBE32_lt hk0 hk1 hk2 hk3
          have hlenval : readBE32 b0 b1 b2 b3 < 4294967296 :=
            readBE32_lt hb0 hb1 hb2 hb3
          split at h
          case isTrue htag =>
            split at h
            case h_2 => exact Except.noConfusion h
            case h_1 key snd hdec =>
              simp only [Except.ok.injEq, Prod.mk.injEq] at h
              obtain ⟨hcq, hrq⟩ := h
              subst hcq
              subst hrq
              constructor
              · constructor
                · exact hdatalen.symm
                · exact hlenval
                · show readBE32 k0 k1 k2 k3 = crc32 (fiLeTag ++ _)
                  rw [← htag, htagdata, ← hcrc]
                · exact hcrcval
                · show fiLeTag.length = 4
                  rfl
                · show isValidUtf8 fiLeTag = true
                  rfl
                · exact hdatabytes
                · exact ⟨snd, hdec⟩
              · show b0 :: b1 :: b2 :: b3 :: rest
                  = (be32 (readBE32 b0 b1 b2 b3) ++ fiLeTag ++ _ ++ be32 (readBE32 k0 k1 k2 k3)) ++ r2
                rw [be32_readBE32 hb0 hb1 hb2 hb3, be32_readBE32 hk0 hk1 hk2 hk3, ← htag]
                simp only [List.cons_append, List.append_assoc, List.nil_append,
                  List.cons.injEq, true_and]
                rw [← List.append_assoc, htagdata, ← heq, List.take_append_drop]
          case isFalse htag =>
            simp only [Except.ok.injEq, Prod.mk.injEq] at h
            obtain ⟨hcq, hrq⟩ := h
            subst hcq
            subst hrq
            constructor
            · constructor
              · exact hdatalen.symm
              · exact hlenval
              · show readBE32 k0 k1 k2 k3 = crc32 (rest.take 4 ++ _)
                rw [htagdata, ← hcrc]
              · exact hcrcval
              · exact htaglen
              · exact hutf
              · exact hdatabytes
              · exact htag
            · show b0 :: b1 :: b2 :: b3 :: rest
                = (be32 (readBE32 b0 b1 b2 b3) ++ rest.take 4 ++ _ ++ be32 (readBE32 k0 k1 k2 k3)) ++ r2
              rw [be32_readBE32 hb0 hb1 hb2 hb3, be32_readBE32 hk0 hk1 hk2 hk3]
              simp only [List.cons_append, List.append_assoc, List.nil_append,
                List.cons.injEq, true_and]
              rw [← List.append_assoc, htagdata, ← heq, List.take_append_drop]

theorem readChunk_complete {c : PngChunk} (hc : ChunkWF c) (rest : List Nat) :
    readChunk (chunkBytes c ++ rest) = .ok (c, rest) := by
  obtain ⟨ct, cdata, ccrc, clen⟩ := c
  obtain ⟨len_eq, len_lt, crc_eq, crc_lt, tag_len, tag_utf8, data_bytes, kind_ok⟩ := hc
  simp only at len_eq len_lt crc_eq crc_lt tag_len tag_utf8 data_bytes kind_ok
  have hform : chunkBytes ⟨ct, cdata, ccrc, clen⟩ ++ rest =
      (clen / 16777216 % 256) :: (clen / 65536 % 256) :: (clen / 256 % 256) ::
      (clen % 256) :: (ct.tagBytes ++ (cdata ++ (be32 ccrc ++ rest))) := by
    simp [chunkBytes, be32, List.append_assoc]
  have htdlen : (ct.tagBytes ++ cdata).length = 4 + clen := by
    simp [tag_len, len_eq]
  have hassoc : ct.tagBytes ++ (cdata ++ (be32 ccrc ++ rest)) =
      (ct.tagBytes ++ cdata) ++ (be32 ccrc ++ rest) := by
    rw [List.append_assoc]
  have hrestlen : (ct.tagBytes ++ (cdata ++ (be32 ccrc ++ rest))).length
      = 4 + clen + 4 + rest.length := by
    simp [tag_len, len_eq, length_be32]
    omega
  have htake4 : (ct.tagBytes ++ (cdata ++ (be32 ccrc ++ rest))).take 4
      = ct.tagBytes := by
    rw [List.take_left' tag_len]
  have hdrop : (ct.tagBytes ++ (cdata ++ (be32 ccrc ++ rest))).drop (4 + clen)
      = be32 ccrc ++ rest := by
    rw [hassoc, List.drop_left' htdlen]
  have hcrcform : be32 ccrc ++ rest =
      (ccrc / 16777216 % 256) :: (ccrc / 65536 % 256) :: (ccrc / 256 % 256) ::
      (ccrc % 256) :: rest := by
    simp [be32]
  have htakefull : (ct.tagBytes ++ (cdata ++ (be32 ccrc ++ rest))).take (4 + clen)
      = ct.tagBytes ++ cdata := by
    rw [hassoc, List.take_left' htdlen]
  have hdrop4 : (ct.tagBytes ++ (cdata ++ (be32 ccrc ++ rest))).drop 4
      = cdata ++ (be32 ccrc ++ rest) := by
    rw [List.drop_left' tag_len]
  have htakedata : (cdata ++ (be32 ccrc ++ rest)).take clen = cdata :=
    List.take_left' len_eq.symm
  rw [hform, readChunk, readBE32_be32 len_lt, if_pos (by omega), htake4,
    if_pos tag_utf8, htakefull, hdrop4, htakedata, hdrop, hcrcform]
  simp only []
  rw [readBE32_be32 crc_lt, if_pos crc_eq.symm]
  rcases ct with t | key
  · have hne : t ≠ fiLeTag := kind_ok
    simp only [ChunkType.tagBytes]
    rw [if_neg hne]
  · obtain ⟨d, hdec⟩ := kind_ok
    simp only [ChunkType.tagBytes]
    split
    case isTrue => rw [hdec]
    case isFalse hcond => exact absurd trivial hcond

/-- A chunk serialization prefixed to anything is a nonempty list in
explicit head-normal form. -/
theorem chunkBytes_cons (c : PngChunk) (r : List Nat) :
    chunkBytes c ++ r =
      (c.len / 16777216 % 256) :: (c.len / 65536 % 256) :: (c.len / 256 % 256) ::
      (c.len % 256) :: (c.chunkType.tagBytes ++ (c.data ++ (be32 c.crc ++ r))) := by
  simp [chunkBytes, be32, List.append_assoc]

/-- Reading a chunk whose structure is intact but whose stored CRC does not
match the CRC of `tag ++ payload` fails: with `crcMismatch` when the tag is
valid UTF-8, and with `invalidChunkType` otherwise (the tag UTF-8 check in
`Png::new` runs before the CRC comparison). -/
theorem readChunk_badcrc {c : PngChunk} (len_eq : c.len = c.data.length)
    (len_lt : c.len < 4294967296) (crc_lt : c.crc < 4294967296)
    (tag_len : c.chunkType.tagBytes.length = 4)
    (hne : crc32 (c.chunkType.tagBytes ++ c.data) ≠ c.crc) (rest : List Nat) :
    readChunk (chunkBytes c ++ rest) =
      (if isValidUtf8 c.chunkType.tagBytes then Except.error PngError.crcMismatch
       else Except.error PngError.invalidChunkType) := by
  obtain ⟨ct, cdata, ccrc, clen⟩ := c
  simp only at len_eq len_lt crc_lt tag_len hne ⊢
  have htdlen : (ct.tagBytes ++ cdata).length = 4 + clen := by
    simp [tag_len, len_eq]
  have hassoc : ct.tagBytes ++ (cdata ++ (be32 ccrc ++ rest)) =
      (ct.tagBytes ++ cdata) ++ (be32 ccrc ++ rest) := by
    rw [List.append_assoc]
  have hrestlen : (ct.tagBytes ++ (cdata ++ (be32 ccrc ++ rest))).length
      = 4 + clen + 4 + rest.length := by
    simp [tag_len, len_eq, length_be32]
    omega
  have htake4 : (ct.tagBytes ++ (cdata ++ (be32 ccrc ++ rest))).take 4
      = ct.tagBytes := by
    rw [List.take_left' tag_len]
  have hdrop : (ct.tagBytes ++ (cdata ++ (be32 ccrc ++ rest))).drop (4 + clen)
      = be32 ccrc ++ rest := by
    rw [hassoc, List.drop_left' htdlen]
  have hcrcform : be32 ccrc ++ rest =
      (ccrc / 16777216 % 256) :: (ccrc / 65536 % 256) :: (ccrc / 256 % 256) ::
      (ccrc % 256) :: rest := by
    simp [be32]
  have htakefull : (ct.tagBytes ++ (cdata ++ (be32 ccrc ++ rest))).take (4 + clen)
      = ct.tagBytes ++ cdata := by
    rw [hassoc, List.take_left' htdlen]
  have hform : chunkBytes ⟨ct, cdata, ccrc, clen⟩ ++ rest =
      (clen / 16777216 % 256) :: (clen / 65536 % 256) :: (clen / 256 % 256) ::
      (clen % 256) :: (ct.tagBytes ++ (cdata ++ (be32 ccrc ++ rest))) := by
    simp [chunkBytes, be32, List.append_assoc]
  rw [hform, readChunk, readBE32_be32 len_lt, if_pos (by omega), htake4]
  by_cases hutf : isValidUtf8 ct.tagBytes = true
  · rw [if_pos hutf, if_pos hutf, htakefull, hdrop, hcrcform]
    simp only []
    rw [readBE32_be32 crc_lt, if_neg hne]
  · rw [if_neg hutf, if_neg hutf]

theorem parseGo_nil (fuel : Nat) : parseChunksGo fuel [] = .ok [] := by
  cases fuel <;> rfl

theorem parseGo_sound : ∀ (fuel : Nat) (buf : List Nat) (cs : List PngChunk),
    allBytes buf → buf.length ≤ fuel → parseChunksGo fuel buf = .ok cs →
    chunksBytes cs = buf ∧ ∀ c ∈ cs, ChunkWF c := by
  intro fuel
  induction fuel with
  | zero =>
    intro buf cs hb hl h
    have hbuf : buf = [] := List.length_eq_zero.mp (by omega)
    subst hbuf
    rw [parseGo_nil] at h
    injection h with h2
    subst h2
    exact ⟨rfl, by intro c hc; exact absurd hc (List.not_mem_nil c)⟩
  | succ fuel ih =>
    intro buf cs hb hl h
    rcases buf with _ | ⟨b, bs⟩
    · rw [parseGo_nil] at h
      injection h with h2
      subst h2
      exact ⟨rfl, by intro c hc; exact absurd hc (List.not_mem_nil c)⟩
    rw [parseChunksGo] at h
    rcases hr : readChunk (b :: bs) with e | ⟨c, rest2⟩
    · rw [hr] at h
      simp only [] at h
      exact Except.noConfusion h
    rw [hr] at h
    simp only [] at h
    obtain ⟨hwf, hsplit⟩ := readChunk_ok hb hr
    rcases hp : parseChunksGo fuel rest2 with e2 | cs2
    · rw [hp] at h
      simp only [] at h
      exact Except.noConfusion h
    rw [hp] at h
    simp only [] at h
    injection h with h2
    subst h2
    have hb2 : allBytes rest2 := fun x hx => by
      rw [hsplit] at hb
      exact hb x (List.mem_append_right _ hx)
    have hlen2 : rest2.length ≤ fuel := by
      have hlsp := congrArg List.length hsplit
      simp only [List.length_append, List.length_cons,
        length_chunkBytes hwf.tag_len] at hlsp
      simp only [List.length_cons] at hl
      omega
    obtain ⟨ih1, ih2⟩ := ih rest2 cs2 hb2 hlen2 hp
    constructor
    · show chunkBytes c ++ chunksBytes cs2 = b :: bs
      rw [ih1, ← hsplit]
    · intro x hx
      rcases List.mem_cons.mp hx with hx | hx
      · subst hx; exact hwf
      · exact ih2 x hx

theorem parseGo_complete : ∀ (cs : List PngChunk) (fuel : Nat),
    (∀ c ∈ cs, ChunkWF c) → (chunksBytes cs).length ≤ fuel →
    parseChunksGo fuel (chunksBytes cs) = .ok cs := by
  intro cs
  induction cs with
  | nil => intro fuel _ _; exact parseGo_nil fuel
  | cons c cs ih =>
    intro fuel hwf hlen
    have hc : ChunkWF c := hwf c (by simp)
    have hlb : (chunkBytes c).length = c.data.length + 12 := length_chunkBytes hc.tag_len
    have hform : chunksBytes (c :: cs) = chunkBytes c ++ chunksBytes cs := rfl
    have hlsum : (chunksBytes (c :: cs)).length
        = c.data.length + 12 + (chunksBytes cs).length := by
      rw [hform, List.length_append, hlb]
    rcases fuel with _ | fuel
    · omega
    rw [hform, chunkBytes_cons c (chunksBytes cs), parseChunksGo,
      ← chunkBytes_cons c (chunksBytes cs), readChunk_complete hc]
    simp only []
    rw [ih fuel (fun x hx => hwf x (by simp [hx])) (by omega)]

theorem parseGo_error : ∀ (pre : List PngChunk) {suffix : List Nat} {e : PngError},
    (∀ c ∈ pre, ChunkWF c) → readChunk suffix = .error e → suffix ≠ [] →
    ∀ fuel, (chunksBytes pre ++ suffix).length ≤ fuel →
    parseChunksGo fuel (chunksBytes pre ++ suffix) = .error e := by
  intro pre
  induction pre with
  | nil =>
    intro suffix e _ hread hne fuel hlen
    rcases suffix with _ | ⟨s0, srest⟩
    · exact absurd rfl hne
    rcases fuel with _ | fuel
    · simp at hlen
    show parseChunksGo (fuel + 1) (s0 :: srest) = .error e
    rw [parseChunksGo, hread]
  | cons c pre ih =>
    intro suffix e hwf hread hne fuel hlen
    have hc : ChunkWF c := hwf c (by simp)
    have hlb : (chunkBytes c).length = c.data.length + 12 := length_chunkBytes hc.tag_len
    have hform : chunksBytes (c :: pre) ++ suffix
        = chunkBytes c ++ (chunksBytes pre ++ suffix) := by
      show (chunkBytes c ++ chunksBytes pre) ++ suffix = _
      rw [List.append_assoc]
    have hlsum : (chunksBytes (c :: pre) ++ suffix).length
        = c.data.length + 12 + (chunksBytes pre ++ suffix).length := by
      rw [hform, List.length_append, hlb]
    rcases fuel with _ | fuel
    · omega
    rw [hform, chunkBytes_cons c (chunksBytes pre ++ suffix), parseChunksGo,
      ← chunkBytes_cons c (chunksBytes pre ++ suffix), readChunk_complete hc]
    simp only []
    rw [ih (fun x hx => hwf x (by simp [hx])) hread hne fuel (by omega)]

/-! ## Parsing a whole buffer -/

theorem parse_sound {b : List Nat} {p : Png} (hb : allBytes b)
    (h : parse b = .ok p) :
    intoBytes p = b ∧ PngWF p ∧ p.capacity = b.length := by
  rw [parse] at h
  split at h
  · exact Except.noConfusion h
  split at h
  · exact Except.noConfusion h
  case isFalse hlen hne =>
    have htake : b.take 8 = pngHeader := not_not.mp hne
    split at h
    case h_1 => exact Except.noConfusion h
    case h_2 cs heq =>
      injection h with h2
      subst h2
      have hbd : allBytes (b.drop 8) := fun x hx => hb x (List.mem_of_mem_drop hx)
      obtain ⟨h1, h2⟩ := parseGo_sound (b.drop 8).length (b.drop 8) cs hbd
        (Nat.le_refl _) heq
      refine ⟨?_, h2, rfl⟩
      show pngHeader ++ chunksBytes cs = b
      rw [h1, ← htake, List.take_append_drop]

theorem parse_complete {p : Png} (hw : PngWF p) :
    parse (intoBytes p) = .ok ⟨p.chunks, (intoBytes p).length⟩ := by
  have hhead : (pngHeader : List Nat).length = 8 := rfl
  have hlen : (intoBytes p).length = 8 + (chunksBytes p.chunks).length := by
    show (pngHeader ++ chunksBytes p.chunks).length = _
    rw [List.length_append, hhead]
  have htake : (intoBytes p).take 8 = pngHeader := List.take_left' hhead
  have hdrop : (intoBytes p).drop 8 = chunksBytes p.chunks := List.drop_left' hhead
  rw [parse, if_neg (by omega), if_neg (by rw [htake]; simp)]
  show (match parseChunks ((intoBytes p).drop 8) with
    | .error e => Except.error e
    | .ok cs => Except.ok (⟨cs, (intoBytes p).length⟩ : Png)) = _
  rw [show parseChunks ((intoBytes p).drop 8)
      = parseChunksGo ((intoBytes p).drop 8).length ((intoBytes p).drop 8) from rfl]
  rw [hdrop]
  rw [parseGo_complete p.chunks (chunksBytes p.chunks).length hw (Nat.le_refl _)]

/-! ## Position and search lemmas -/

theorem posOf_eq_none {p : α → Bool} :
    ∀ {l : List α}, posOf p l = none ↔ ∀ x ∈ l, p x = false := by
  intro l
  induction l with
  | nil => simp [posOf]
  | cons a l ih =>
    rw [posOf]
    by_cases hpa : p a = true
    · simp [hpa]
    · simp only [Bool.not_eq_true] at hpa
      simp [hpa, Option.map_eq_none, ih]

theorem posOf_decomp {p : α → Bool} :
    ∀ {l : List α} {i : Nat}, posOf p l = some i →
    ∃ l1 a l2, l = l1 ++ a :: l2 ∧ l1.length = i ∧ p a = true ∧
      ∀ x ∈ l1, p x = false := by
  intro l
  induction l with
  | nil => intro i h; exact Option.noConfusion h
  | cons a l ih =>
    intro i h
    rw [posOf] at h
    by_cases hpa : p a = true
    · rw [if_pos hpa] at h
      injection h with h2
      exact ⟨[], a, l, by simp, by simp [← h2], hpa, by simp⟩
    · rw [if_neg hpa] at h
      simp only [Bool.not_eq_true] at hpa
      rcases hj : posOf p l with _ | j
      · rw [hj] at h; exact Option.noConfusion h
      · rw [hj] at h
        have h2 : some (j + 1) = some i := h
        injection h2 with h2
        obtain ⟨l1, x, l2, hsplit, hlen, hpx, hpre⟩ := ih hj
        refine ⟨a :: l1, x, l2, by simp [hsplit], by simp [hlen, ← h2], hpx, ?_⟩
        intro y hy
        rcases List.mem_cons.mp hy with hy | hy
        · subst hy; exact hpa
        · exact hpre y hy

theorem find?_firstHit {p : α → Bool} :
    ∀ (l1 : List α) (a : α) (l2 : List α), (∀ x ∈ l1, p x = false) →
    p a = true → (l1 ++ a :: l2).find? p = some a := by
  intro l1
  induction l1 with
  | nil => intro a l2 _ hpa; exact List.find?_cons_of_pos l2 hpa
  | cons y l1 ih =>
    intro a l2 hpre hpa
    rw [List.cons_append, List.find?_cons_of_neg _ (by simp [hpre y (by simp)])]
    exact ih a l2 (fun x hx => hpre x (by simp [hx])) hpa

/-! ## Mutator characterizations -/

theorem length_encodeFile (compress : List Nat → List Nat) (key data : List Nat) :
    (encodeFile compress key data).length =
      (varintEnc key.length).length + key.length
      + (varintEnc (compress data).length).length + (compress data).length := by
  simp [encodeFile]
  omega

theorem encodeFile_bytes {compress : List Nat → List Nat} {key data : List Nat}
    (hkey : isValidUtf8 key = true) (hcb : allBytes (compress data)) :
    allBytes (encodeFile compress key data) := by
  intro x hx
  unfold encodeFile at hx
  simp only [List.mem_append] at hx
  rcases hx with ((hx | hx) | hx) | hx
  · exact varintEnc_bytes _ x hx
  · exact utf8_bytes key hkey x hx
  · exact varintEnc_bytes _ x hx
  · exact hcb x hx

/-- The chunk built by a successful insert is well formed. -/
theorem insChunk_wf {compress : List Nat → List Nat} {key data : List Nat}
    (hkey : isValidUtf8 key = true) (hcb : allBytes (compress data))
    (hsize : (encodeFile compress key data).length ≤ 4294967295) :
    ChunkWF (insChunk compress key data) := by
  have henc := encodeFile_bytes hkey hcb
  have hlen := length_encodeFile compress key data
  have hkl : key.length < 18446744073709551616 := by omega
  have hdl : (compress data).length < 18446744073709551616 := by omega
  constructor
  · rfl
  · show (encodeFile compress key data).length < 4294967296
    omega
  · rfl
  · exact crc32_lt (fun x hx => by
      rcases List.mem_append.mp hx with hx | hx
      · have : x < 245 := by
          rcases (by simp [fiLeTag] at hx; exact hx :
            x = 102 ∨ x = 105 ∨ x = 76 ∨ x = 101) with h | h | h | h <;> omega
        omega
      · exact henc x hx)
  · rfl
  · rfl
  · exact henc
  · exact ⟨compress data, decodeFile_encodeFile hkey hkl hdl⟩

theorem insertFile_dup {compress : List Nat → List Nat} {p : Png}
    {key data : List Nat} (hsome : posOf (isFileWithKey key) p.chunks ≠ none) :
    insertFile compress p key data false = (.error .duplicateKey, p) := by
  simp only [insertFile]
  rw [if_pos (by exact ⟨trivial, Option.isSome_iff_ne_none.mpr hsome⟩)]

theorem insertFile_size {compress : List Nat → List Nat} {p : Png}
    {key data : List Nat} {replace : Bool}
    (hcase : replace = true ∨ posOf (isFileWithKey key) p.chunks = none)
    (hsize : (encodeFile compress key data).length > 4294967295) :
    insertFile compress p key data replace = (.error .sizeLimit, p) := by
  simp only [insertFile]
  rw [if_neg, if_pos hsize]
  rintro ⟨hrep, hidx⟩
  rcases hcase with hc | hc
  · rw [hc] at hrep; exact Bool.noConfusion hrep
  · rw [hc] at hidx; exact Bool.noConfusion hidx

theorem insertFile_append {compress : List Nat → List Nat} {p : Png}
    {key data : List Nat} {replace : Bool}
    (hnone : posOf (isFileWithKey key) p.chunks = none)
    (hsize : (encodeFile compress key data).length ≤ 4294967295) :
    insertFile compress p key data replace
      = (.ok (), ⟨p.chunks ++ [insChunk compress key data], p.capacity⟩) := by
  simp only [insertFile]
  rw [hnone]
  rw [if_neg (by rintro ⟨_, his⟩; exact Bool.noConfusion his)]
  rw [if_neg (by omega)]

theorem insertFile_set {compress : List Nat → List Nat} {p : Png}
    {key data : List Nat} {i : Nat}
    (hsome : posOf (isFileWithKey key) p.chunks = some i)
    (hsize : (encodeFile compress key data).length ≤ 4294967295) :
    insertFile compress p key data true
      = (.ok (), ⟨p.chunks.set i (insChunk compress key data), p.capacity⟩) := by
  simp only [insertFile]
  rw [hsome]
  rw [if_neg (by rintro ⟨hrep, _⟩; exact Bool.noConfusion hrep)]
  rw [if_neg (by omega)]

/-- Anatomy of every successful insert: the encoded payload fits the length
field, and the container is extended by the new chunk (no existing key) or
has it replace the first matching chunk in place. -/
theorem insertFile_ok {compress : List Nat → List Nat} {p p2 : Png}
    {key data : List Nat} {replace : Bool}
    (h : insertFile compress p key data replace = (.ok (), p2)) :
    (encodeFile compress key data).length ≤ 4294967295 ∧
    ((posOf (isFileWithKey key) p.chunks = none ∧
        p2 = ⟨p.chunks ++ [insChunk compress key data], p.capacity⟩) ∨
      (∃ i, posOf (isFileWithKey key) p.chunks = some i ∧ replace = true ∧
        p2 = ⟨p.chunks.set i (insChunk compress key data), p.capacity⟩)) := by
  by_cases hsize : (encodeFile compress key data).length ≤ 4294967295
  · refine ⟨hsize, ?_⟩
    rcases hidx : posOf (isFileWithKey key) p.chunks with _ | i
    · left
      refine ⟨rfl, ?_⟩
      rw [insertFile_append hidx hsize] at h
      injection h with _ h2
      exact h2.symm
    · right
      rcases replace with _ | _
      · rw [insertFile_dup (by rw [hidx]; exact fun hcon => Option.noConfusion hcon)] at h
        injection h with h1 _
        exact Except.noConfusion h1
      · refine ⟨i, rfl, rfl, ?_⟩
        rw [insertFile_set hidx hsize] at h
        injection h with _ h2
        exact h2.symm
  · exfalso
    rcases hidx : posOf (isFileWithKey key) p.chunks with _ | i
    · rw [insertFile_size (Or.inr hidx) (by omega)] at h
      injection h with h1 _
      exact Except.noConfusion h1
    · rcases replace with _ | _
      · rw [insertFile_dup (by rw [hidx]; exact fun hcon => Option.noConfusion hcon)] at h
        injection h with h1 _
        exact Except.noConfusion h1
      · rw [insertFile_size (Or.inl rfl) (by omega)] at h
        injection h with h1 _
        exact Except.noConfusion h1

/-! ## Invariant preservation -/

theorem insertFile_wf {compress : List Nat → List Nat} {p p2 : Png}
    {key data : List Nat} {replace : Bool}
    (hw : PngWF p) (hkey : isValidUtf8 key = true)
    (hcb : allBytes (compress data))
    (h : insertFile compress p key data replace = (.ok (), p2)) : PngWF p2 := by
  obtain ⟨hsize, hcases⟩ := insertFile_ok h
  have hnew := insChunk_wf hkey hcb hsize
  rcases hcases with ⟨_, hp2⟩ | ⟨i, _, _, hp2⟩
  · subst hp2
    intro c hc
    rcases List.mem_append.mp hc with hc | hc
    · exact hw c hc
    · simp only [List.mem_singleton] at hc
      subst hc
      exact hnew
  · subst hp2
    intro c hc
    rcases List.mem_or_eq_of_mem_set hc with hc | hc
    · exact hw c hc
    · subst hc
      exact hnew

theorem removeFile_wf {p : Png} {key : List Nat} (hw : PngWF p) :
    PngWF (removeFile p key).2 := by
  rcases hp : posOf (isFileWithKey key) p.chunks with _ | i
  · have heq : removeFile p key = (false, p) := by rw [removeFile, hp]
    rw [heq]
    exact hw
  · have heq : removeFile p key = (true, ⟨p.chunks.eraseIdx i, p.capacity⟩) := by
      rw [removeFile, hp]
    rw [heq]
    intro c hc
    exact hw c ((List.eraseIdx_sublist p.chunks i).subset hc)

/-! ## Key uniqueness -/

theorem isFileWithKey_unique {k1 k2 : List Nat} {c : PngChunk}
    (h1 : isFileWithKey k1 c = true) (h2 : isFileWithKey k2 c = true) :
    k1 = k2 := by
  rcases c with ⟨ct, cdata, ccrc, clen⟩
  rcases ct with t | key
  · exact absurd h1 (by simp [isFileWithKey])
  · simp only [isFileWithKey, beq_iff_eq] at h1 h2
    rw [← h1, ← h2]

theorem isFileWithKey_insChunk (k key : List Nat)
    (compress : List Nat → List Nat) (data : List Nat) :
    isFileWithKey k (insChunk compress key data) = (key == k) := rfl

theorem set_append_length {l1 l2 : List α} (a b : α) :
    (l1 ++ a :: l2).set l1.length b = l1 ++ b :: l2 := by
  rw [List.set_append_right _ _ (Nat.le_refl _)]
  simp

theorem insertFile_unique {compress : List Nat → List Nat} {p p2 : Png}
    {key data : List Nat} {replace : Bool}
    (hu : uniqueKeys p)
    (h : insertFile compress p key data replace = (.ok (), p2)) :
    uniqueKeys p2 := by
  obtain ⟨hsize, hcases⟩ := insertFile_ok h
  rcases hcases with ⟨hnone, hp2⟩ | ⟨i, hsome, hrep, hp2⟩
  · subst hp2
    intro k
    show (p.chunks ++ [insChunk compress key data]).countP (isFileWithKey k) ≤ 1
    rw [List.countP_append, List.countP_cons]
    simp only [List.countP_nil, isFileWithKey_insChunk]
    by_cases hk : key = k
    · have hz : p.chunks.countP (isFileWithKey k) = 0 := by
        rw [List.countP_eq_zero]
        intro x hx
        subst hk
        simp [posOf_eq_none.mp hnone x hx]
      rw [hz]
      simp [hk]
    · have hb : (key == k) = false := beq_eq_false_iff_ne.mpr hk
      simp only [hb, Bool.false_eq_true, if_false, Nat.add_zero]
      exact hu k
  · subst hp2
    intro k
    obtain ⟨l1, a, l2, hsplit, hlen, hpa, hpre⟩ := posOf_decomp hsome
    show (p.chunks.set i (insChunk compress key data)).countP (isFileWithKey k) ≤ 1
    rw [hsplit, ← hlen, set_append_length]
    have hu2 := hu k
    rw [hsplit] at hu2
    rw [List.countP_append, List.countP_cons] at hu2 ⊢
    rw [isFileWithKey_insChunk]
    by_cases hk : key = k
    · subst hk
      rw [if_pos (by simp)]
      rw [if_pos hpa] at hu2
      omega
    · rw [if_neg (by simp [hk])]
      split at hu2 <;> omega

theorem removeFile_unique {p : Png} {key : List Nat} (hu : uniqueKeys p) :
    uniqueKeys (removeFile p key).2 := by
  rcases hp : posOf (isFileWithKey key) p.chunks with _ | i
  · have heq : removeFile p key = (false, p) := by rw [removeFile, hp]
    rw [heq]
    exact hu
  · have heq : removeFile p key = (true, ⟨p.chunks.eraseIdx i, p.capacity⟩) := by
      rw [removeFile, hp]
    rw [heq]
    intro k
    exact le_trans ((List.eraseIdx_sublist p.chunks i).countP_le _) (hu k)

/-! ## Remaining helper lemmas -/

theorem chunksBytes_append (l1 l2 : List PngChunk) :
    chunksBytes (l1 ++ l2) = chunksBytes l1 ++ chunksBytes l2 := by
  induction l1 with
  | nil => rfl
  | cons c l1 ih =>
    show chunkBytes c ++ chunksBytes (l1 ++ l2) = (chunkBytes c ++ chunksBytes l1) ++ _
    rw [ih, List.append_assoc]

/-- Serializing a container whose chunk sequence starts with well-formed
chunks and continues with bytes the chunk reader rejects parses to that
rejection. -/
theorem parse_header_error {pre : List PngChunk} {suffix : List Nat} {e : PngError}
    (hwf : ∀ c ∈ pre, ChunkWF c) (hrc : readChunk suffix = .error e)
    (hne : suffix ≠ []) :
    parse (pngHeader ++ (chunksBytes pre ++ suffix)) = .error e := by
  have hhead : (pngHeader : List Nat).length = 8 := rfl
  have hlen : (pngHeader ++ (chunksBytes pre ++ suffix)).length
      = 8 + (chunksBytes pre ++ suffix).length := by
    rw [List.length_append, hhead]
  have htake : (pngHeader ++ (chunksBytes pre ++ suffix)).take 8 = pngHeader :=
    List.take_left' hhead
  have hdrop : (pngHeader ++ (chunksBytes pre ++ suffix)).drop 8
      = chunksBytes pre ++ suffix := List.drop_left' hhead
  rw [parse, if_neg (by omega), if_neg (by rw [htake]; simp)]
  rw [show parseChunks ((pngHeader ++ (chunksBytes pre ++ suffix)).drop 8)
      = parseChunksGo ((pngHeader ++ (chunksBytes pre ++ suffix)).drop 8).length
        ((pngHeader ++ (chunksBytes pre ++ suffix)).drop 8) from rfl]
  rw [hdrop]
  rw [parseGo_error pre hwf hrc hne _ (Nat.le_refl _)]

theorem posOf_firstHit {p : α → Bool} :
    ∀ (l1 : List α) (a : α) (l2 : List α), (∀ x ∈ l1, p x = false) →
    p a = true → posOf p (l1 ++ a :: l2) = some l1.length := by
  intro l1
  induction l1 with
  | nil => intro a l2 _ hpa; simp [posOf, hpa]
  | cons y l1 ih =>
    intro a l2 hpre hpa
    rw [List.cons_append, posOf, if_neg (by simp [hpre y (by simp)])]
    rw [ih a l2 (fun x hx => hpre x (by simp [hx])) hpa]
    rfl

theorem posOf_ne_none_of_mem {p : α → Bool} {l : List α} {c : α}
    (hc : c ∈ l) (hpc : p c = true) : posOf p l ≠ none := by
  intro h
  rw [posOf_eq_none.mp h c hc] at hpc
  exact Bool.noConfusion hpc

theorem xor_bit_lt {b j : Nat} (hb : b < 256) (hj : j < 8) : b ^^^ 2 ^ j < 256 := by
  have h1 : (256 : Nat) = 2 ^ 8 := by norm_num
  have h2 : 2 ^ j < 2 ^ 8 := Nat.pow_lt_pow_right (by omega) hj
  rw [h1] at hb ⊢
  exact Nat.bitwise_lt hb (by omega)

theorem xor_bit_ne {b j : Nat} : b ^^^ 2 ^ j ≠ b := by
  intro h
  have h2 : b ^^^ 2 ^ j = b ^^^ 0 := by rw [Nat.xor_zero]; exact h
  have h3 : 2 ^ j = 0 := Nat.xor_right_injective h2
  exact absurd h3 (Nat.pos_iff_ne_zero.mp (Nat.pos_pow_of_pos j (by omega)))

/-- The serialized bytes of a container whose chunk at some position has a
single bit of its wire `tag ++ payload` image flipped re-parse to
`crcMismatch` when the flipped tag is still valid UTF-8, and to
`invalidChunkType` when it is not. -/
theorem parse_bitflip {b : List Nat} {png : Png} {pre post : List PngChunk}
    {c : PngChunk} {tag2 data2 : List Nat} {cap : Nat}
    (hb : allBytes b) (hp : parse b = .ok png)
    (hchunks : png.chunks = pre ++ c :: post)
    (hflip : OneBitFlip (c.chunkType.tagBytes ++ c.data) (tag2 ++ data2))
    (htag2 : tag2.length = 4) :
    parse (intoBytes ⟨pre ++ (⟨.png tag2, data2, c.crc, c.len⟩ : PngChunk) :: post, cap⟩)
      = (if isValidUtf8 tag2 then Except.error PngError.crcMismatch
         else Except.error PngError.invalidChunkType) := by
  obtain ⟨-, hwf, -⟩ := parse_sound hb hp
  have hwf2 : ∀ x ∈ pre ++ c :: post, ChunkWF x := fun x hx =>
    hwf x (by rw [hchunks]; exact hx)
  have hwc : ChunkWF c := hwf2 c (by simp)
  have hwpre : ∀ x ∈ pre, ChunkWF x := fun x hx => hwf2 x (by simp [hx])
  obtain ⟨q, b0, j, s, hj, hold, hnew⟩ := hflip
  have holdbytes : allBytes (c.chunkType.tagBytes ++ c.data) := fun x hx => by
    rcases List.mem_append.mp hx with hx | hx
    · exact utf8_bytes _ hwc.tag_utf8 x hx
    · exact hwc.data_bytes x hx
  have hq : allBytes q := fun x hx => holdbytes x (by rw [hold]; simp [hx])
  have hb0 : b0 < 256 := holdbytes b0 (by rw [hold]; simp)
  have hs : allBytes s := fun x hx => holdbytes x (by rw [hold]; simp [hx])
  have hnewbytes : allBytes (tag2 ++ data2) := by
    rw [hnew]
    intro x hx
    rcases List.mem_append.mp hx with hx | hx
    · exact hq x hx
    rcases List.mem_cons.mp hx with hx | hx
    · subst hx; exact xor_bit_lt hb0 hj
    · exact hs x hx
  have hlen2 : tag2.length + data2.length = 4 + c.data.length := by
    have h1 := congrArg List.length hold
    have h2 := congrArg List.length hnew
    simp only [List.length_append, List.length_cons, hwc.tag_len] at h1 h2
    omega
  have hdata2 : data2.length = c.data.length := by omega
  have hcrcne : crc32 (tag2 ++ data2) ≠ c.crc := by
    rw [hnew, hwc.crc_eq, hold]
    intro hcon
    exact crc32_ne_of_byte_change hq hs (xor_bit_lt hb0 hj) hb0
      xor_bit_ne hcon
  set c2 : PngChunk := ⟨.png tag2, data2, c.crc, c.len⟩ with hc2
  have hwc2tag : c2.chunkType.tagBytes = tag2 := rfl
  have hbad : readChunk (chunkBytes c2 ++ chunksBytes post)
      = (if isValidUtf8 tag2 then Except.error PngError.crcMismatch
         else Except.error PngError.invalidChunkType) := by
    have := readChunk_badcrc (c := c2)
      (by show c.len = data2.length; rw [hdata2, hwc.len_eq]) hwc.len_lt hwc.crc_lt
      (by rw [hwc2tag, htag2])
      (by rw [hwc2tag]; show crc32 (tag2 ++ data2) ≠ c.crc; exact hcrcne)
      (chunksBytes post)
    rw [this, hwc2tag]
  have hform : intoBytes ⟨pre ++ c2 :: post, cap⟩
      = pngHeader ++ (chunksBytes pre ++ (chunkBytes c2 ++ chunksBytes post)) := by
    show pngHeader ++ chunksBytes (pre ++ c2 :: post) = _
    rw [chunksBytes_append]
    rfl
  rw [hform]
  by_cases hutf : isValidUtf8 tag2 = true
  · rw [if_pos hutf]
    rw [if_pos hutf] at hbad
    exact parse_header_error hwpre hbad (by rw [chunkBytes_cons]; exact List.cons_ne_nil _ _)
  · rw [if_neg hutf]
    rw [if_neg hutf] at hbad
    exact parse_header_error hwpre hbad (by rw [chunkBytes_cons]; exact List.cons_ne_nil _ _)

/-- After a successful insert, looking the key up decodes the inserted
record and decompresses it back. -/
theorem getFile_insertFile {compress : List Nat → List Nat}
    {decompress : List Nat → Option (List Nat)} {p p2 : Png}
    {key data : List Nat} {replace : Bool}
    (hkey : isValidUtf8 key = true)
    (hdc : decompress (compress data) = some data)
    (h : insertFile compress p key data replace = (.ok (), p2)) :
    getFile decompress p2 key = some data := by
  obtain ⟨hsize, hcases⟩ := insertFile_ok h
  have hlen := length_encodeFile compress key data
  have hdecode : decodeFile (encodeFile compress key data)
      = some (key, compress data) :=
    decodeFile_encodeFile hkey (by omega) (by omega)
  have hmatch : isFileWithKey key (insChunk compress key data) = true := by
    rw [isFileWithKey_insChunk]
    simp
  rcases hcases with ⟨hnone, hp2⟩ | ⟨i, hsome, hrep, hp2⟩
  · subst hp2
    have hfind : (p.chunks ++ insChunk compress key data :: []).find?
        (isFileWithKey key) = some (insChunk compress key data) :=
      find?_firstHit p.chunks _ [] (fun x hx => posOf_eq_none.mp hnone x hx) hmatch
    rw [getFile]
    rw [show (⟨p.chunks ++ [insChunk compress key data], p.capacity⟩ : Png).chunks
      = p.chunks ++ insChunk compress key data :: [] from rfl]
    rw [hfind]
    simp only []
    rw [show (insChunk compress key data).data = encodeFile compress key data from rfl]
    rw [hdecode]
    simp only []
    exact hdc
  · subst hp2
    obtain ⟨l1, a, l2, hsplit, hlen1, hpa, hpre⟩ := posOf_decomp hsome
    rw [getFile]
    rw [show (⟨p.chunks.set i (insChunk compress key data), p.capacity⟩ : Png).chunks
      = p.chunks.set i (insChunk compress key data) from rfl]
    rw [hsplit, ← hlen1, set_append_length]
    rw [find?_firstHit l1 _ l2 hpre hmatch]
    simp only []
    rw [show (insChunk compress key data).data = encodeFile compress key data from rfl]
    rw [hdecode]
    simp only []
    exact hdc

/-- Length of the oversized encoded record used at the size boundary. -/
theorem encodeFile_bigCompress_length (data : List Nat) :
    (encodeFile bigCompress [97] data).length = 4294967307 := by
  rw [length_encodeFile]
  have h1 : (varintEnc ([97] : List Nat).length).length = 1 := by decide
  have h2 : (bigCompress data).length = 4294967296 := List.length_replicate _ _
  have h3 : (varintEnc 4294967296).length = 9 := by decide
  rw [h2, h1, h3]
  decide

/-! # The claims -/

/-- C1: for every well-formed buffer (valid signature, chunks with matching
stored CRC-32, any fiLe payload bincode-decodable — which is exactly what a
successful `Png::new` checks), serializing the parsed container without
mutation reproduces the buffer byte for byte. -/
theorem claim_C1 {b : List Nat} {png : Png} (hbytes : allBytes b)
    (h : parse b = .ok png) : intoBytes png = b :=
  (parse_sound hbytes h).1

set_option maxRecDepth 10000 in
/-- Witness for C1 on a concrete 23-byte buffer holding one file chunk. -/
theorem claim_C1_witness : intoBytes pngA = bufA :=
  claim_C1 (by decide) rfl

set_option maxRecDepth 10000 in
/-- Counterexample to C2 as stated: a container parsed from a buffer with
two file chunks keyed `"a"` still holds two such chunks after a successful
`insert("a", [], replace = true)` — the mutating operation only replaces
the first match and does not deduplicate. -/
theorem claim_C2_counterexample :
    parse bufDup = .ok dupPng ∧
    (insertFile idCompress dupPng [97] [] true).1 = .ok () ∧
    ((insertFile idCompress dupPng [97] [] true).2).chunks.countP
      (isFileWithKey [97]) = 2 :=
  ⟨rfl, rfl, rfl⟩

/-- C2 amended: the Mutator does not deduplicate keys an already-parsed
container carries; what holds is preservation: if a container has at most
one file chunk per key, it still does after any successful insert and after
any remove. -/
theorem claim_C2 {compress : List Nat → List Nat} {p : Png}
    {key data k2 : List Nat} {replace : Bool} (hu : uniqueKeys p) :
    (∀ p2, insertFile compress p key data replace = (.ok (), p2) → uniqueKeys p2) ∧
    uniqueKeys (removeFile p k2).2 :=
  ⟨fun _ h => insertFile_unique hu h, removeFile_unique hu⟩

set_option maxRecDepth 10000 in
/-- Witness for C2 on the single-chunk container `pngA`. -/
theorem claim_C2_witness :
    uniqueKeys (insertFile idCompress pngA [98] [] true).2 ∧
    uniqueKeys (removeFile pngA [97]).2 := by
  have hu : uniqueKeys pngA := fun k =>
    le_trans (List.countP_le_length _) (by decide)
  exact ⟨(@claim_C2 idCompress pngA [98] [] [97] true hu).1 _ rfl,
    (@claim_C2 idCompress pngA [98] [] [97] true hu).2⟩

set_option maxRecDepth 10000 in
/-- Counterexample to C3 as stated: flipping bit 7 of the first tag byte of
the parsed `"IHDR"` chunk (`73` becomes `201`) makes the tag invalid UTF-8;
re-serializing and re-parsing fails with the invalid-chunk-type error — the
tag UTF-8 check in `Png::new` runs before the CRC comparison — not with the
checksum-mismatch (IntegrityError) the claim promises for every flip. -/
theorem claim_C3_counterexample :
    parse buf1 = .ok png1 ∧
    OneBitFlip ([73, 72, 68, 82] ++ ([] : List Nat)) ([201, 72, 68, 82] ++ []) ∧
    parse (intoBytes ⟨[⟨.png [201, 72, 68, 82], [], 2829168138, 0⟩], 20⟩)
      = .error .invalidChunkType ∧
    PngError.invalidChunkType ≠ PngError.crcMismatch :=
  ⟨rfl, ⟨[], 73, 7, [72, 68, 82], by decide, rfl, rfl⟩, rfl, by decide⟩

/-- C3 amended: flipping a single bit of a parsed chunk's wire
`tag ++ payload` image and re-serializing re-parses to the checksum
mismatch (IntegrityError) whenever the resulting tag is still valid UTF-8 —
in particular for every payload flip; when the flip makes the tag invalid
UTF-8 the parse instead fails with the invalid-chunk-type error, because the
tag decode runs before the CRC comparison. -/
theorem claim_C3 {b : List Nat} {png : Png} {pre post : List PngChunk}
    {c : PngChunk} {tag2 data2 : List Nat} {cap : Nat}
    (hb : allBytes b) (hp : parse b = .ok png)
    (hchunks : png.chunks = pre ++ c :: post)
    (hflip : OneBitFlip (c.chunkType.tagBytes ++ c.data) (tag2 ++ data2))
    (htag2 : tag2.length = 4) :
    parse (intoBytes ⟨pre ++ (⟨.png tag2, data2, c.crc, c.len⟩ : PngChunk) :: post, cap⟩)
      = (if isValidUtf8 tag2 then Except.error PngError.crcMismatch
         else Except.error PngError.invalidChunkType) :=
  parse_bitflip hb hp hchunks hflip htag2

set_option maxRecDepth 10000 in
/-- Witness for C3: flipping bit 0 of the first payload byte of the file
chunk in `bufA` re-parses to the checksum mismatch. -/
theorem claim_C3_witness :
    parse (intoBytes ⟨[⟨.png fiLeTag, [0, 97, 0], 3056499355, 3⟩], 23⟩)
      = .error .crcMismatch := by
  have h := @claim_C3 bufA pngA [] [] fcA fiLeTag [0, 97, 0] 23
    (by decide) rfl rfl
    ⟨[102, 105, 76, 101], 1, 0, [97, 0], by decide, rfl, rfl⟩ rfl
  rw [if_pos (by decide)] at h
  exact h

/-- Counterexample to C4 as stated: the chunk payload for key `"k"`
(`[107]`) and empty data does not start with the key length as a 4-byte
big-endian integer — bincode's `standard()` configuration writes lengths as
variable-length integers (a single byte `1` here), so the actual payload is
`[1, 107, 0]`, not `[0,0,0,1, 107, 0,0,0,0]`. -/
theorem claim_C4_counterexample :
    encodeFile idCompress [107] [] ≠ specRecordLayout idCompress [107] [] ∧
    encodeFile idCompress [107] [] = [1, 107, 0] ∧
    specRecordLayout idCompress [107] [] = [0, 0, 0, 1, 107, 0, 0, 0, 0] :=
  ⟨by decide, rfl, rfl⟩

/-- C4 amended: the payload layout is `varint(key_len) | key_bytes |
varint(data_len) | deflate_compressed_data`, where `varint` is bincode's
variable-length integer encoding (one byte below 251, otherwise a marker
byte and a little-endian fixed-width integer); header decoding reads the key
and the compressed bytes back from that layout. -/
theorem claim_C4 {compress : List Nat → List Nat} {key data : List Nat}
    (hkey : isValidUtf8 key = true)
    (hklen : key.length < 18446744073709551616)
    (hdlen : (compress data).length < 18446744073709551616) :
    encodeFile compress key data
      = varintEnc key.length ++ key ++ varintEnc (compress data).length
        ++ compress data ∧
    decodeFile (encodeFile compress key data) = some (key, compress data) :=
  ⟨rfl, decodeFile_encodeFile hkey hklen hdlen⟩

/-- Witness for C4 with key `"a"` and data `[1, 2]`. -/
theorem claim_C4_witness :
    encodeFile idCompress [97] [1, 2]
      = varintEnc 1 ++ [97] ++ varintEnc 2 ++ [1, 2] ∧
    decodeFile (encodeFile idCompress [97] [1, 2]) = some ([97], [1, 2]) :=
  claim_C4 (by decide) (by decide) (by decide)

/-- C5: inserting under a key an existing file chunk already carries, with
`replace = false`, fails with the duplicate-key error and leaves the
container byte-identical on serialization — the error return precedes every
mutation in `Png::insert_file`. -/
theorem claim_C5 {compress : List Nat → List Nat} {p : Png}
    {key data : List Nat} {c : PngChunk}
    (hc : c ∈ p.chunks) (hkey : isFileWithKey key c = true) :
    insertFile compress p key data false = (.error .duplicateKey, p) ∧
    intoBytes (insertFile compress p key data false).2 = intoBytes p := by
  have h := @insertFile_dup compress p key data
    (posOf_ne_none_of_mem hc hkey)
  exact ⟨h, by rw [h]⟩

set_option maxRecDepth 10000 in
/-- Witness for C5: inserting key `"a"` into `pngA` without replace. -/
theorem claim_C5_witness :
    insertFile idCompress pngA [97] [5] false = (.error .duplicateKey, pngA) ∧
    intoBytes (insertFile idCompress pngA [97] [5] false).2 = intoBytes pngA :=
  claim_C5 (c := fcA) (by decide) (by decide)

/-- C6: a successful insert appends the new chunk after all existing chunks
when no file chunk with the key exists, and otherwise (with
`replace = true`) replaces the first matching chunk at its positional index,
which the key's chunk therefore keeps in the serialized output order. -/
theorem claim_C6 {compress : List Nat → List Nat} {p p2 : Png}
    {key data : List Nat} {replace : Bool}
    (h : insertFile compress p key data replace = (.ok (), p2)) :
    (posOf (isFileWithKey key) p.chunks = none →
      p2.chunks = p.chunks ++ [insChunk compress key data]) ∧
    (∀ i, posOf (isFileWithKey key) p.chunks = some i →
      replace = true ∧
      p2.chunks = p.chunks.set i (insChunk compress key data) ∧
      posOf (isFileWithKey key) p2.chunks = some i) := by
  obtain ⟨hsize, hcases⟩ := insertFile_ok h
  constructor
  · intro hnone
    rcases hcases with ⟨_, hp2⟩ | ⟨i, hsome, _, _⟩
    · rw [hp2]
    · rw [hnone] at hsome
      exact Option.noConfusion hsome
  · intro i hsome
    rcases hcases with ⟨hnone, _⟩ | ⟨i2, hsome2, hrep, hp2⟩
    · rw [hsome] at hnone
      exact Option.noConfusion hnone
    · rw [hsome] at hsome2
      injection hsome2 with hi
      subst hi
      refine ⟨hrep, by rw [hp2], ?_⟩
      obtain ⟨l1, a, l2, hsplit, hlen1, hpa, hpre⟩ := posOf_decomp hsome
      rw [hp2]
      show posOf (isFileWithKey key) (p.chunks.set i (insChunk compress key data))
        = some i
      rw [hsplit, ← hlen1, set_append_length]
      rw [posOf_firstHit l1 _ l2 hpre (by rw [isFileWithKey_insChunk]; simp), hlen1]

set_option maxRecDepth 10000 in
/-- Witness for C6: replacing the key `"a"` chunk of `pngA` keeps it at
index 0. -/
theorem claim_C6_witness :
    ((insertFile idCompress pngA [97] [2] true).2).chunks
      = pngA.chunks.set 0 (insChunk idCompress [97] [2]) ∧
    posOf (isFileWithKey [97]) ((insertFile idCompress pngA [97] [2] true).2).chunks
      = some 0 := by
  have h := (@claim_C6 idCompress pngA (insertFile idCompress pngA [97] [2] true).2
    [97] [2] true rfl).2 0 rfl
  exact ⟨h.2.1, h.2.2⟩

/-- C7: after any successful insert — fresh key or replacement — looking the
key up returns exactly the inserted payload: the stored record decodes back
to the key and the compressed bytes, and decompression inverts the
compression the insert applied. -/
theorem claim_C7 {compress : List Nat → List Nat}
    {decompress : List Nat → Option (List Nat)} {p p2 : Png}
    {key data : List Nat} {replace : Bool}
    (hkey : isValidUtf8 key = true)
    (hdc : decompress (compress data) = some data)
    (h : insertFile compress p key data replace = (.ok (), p2)) :
    getFile decompress p2 key = some data :=
  getFile_insertFile hkey hdc h

set_option maxRecDepth 10000 in
/-- Witness for C7: insert `[1, 2, 3]` under key `"a"` into the empty
container, then read it back. -/
theorem claim_C7_witness :
    getFile idDecompress (insertFile idCompress ⟨[], 8⟩ [97] [1, 2, 3] true).2 [97]
      = some [1, 2, 3] :=
  @claim_C7 idCompress idDecompress ⟨[], 8⟩
    (insertFile idCompress ⟨[], 8⟩ [97] [1, 2, 3] true).2 [97] [1, 2, 3] true
    (by decide) rfl rfl

set_option maxRecDepth 10000 in
/-- Counterexample to C8 as stated: on a container that already holds key
`"a"`, an insert without replace whose encoded payload exceeds the `u32`
range fails with the duplicate-key error — the duplicate check in
`Png::insert_file` runs before the size check — not with SizeLimitError. -/
theorem claim_C8_counterexample :
    (encodeFile bigCompress [97] []).length > 4294967295 ∧
    insertFile bigCompress pngA [97] [] false = (.error .duplicateKey, pngA) ∧
    (Except.error PngError.duplicateKey : Except PngError Unit)
      ≠ .error .sizeLimit := by
  refine ⟨?_, rfl, ?_⟩
  · rw [encodeFile_bigCompress_length]
    decide
  · intro hcon
    injection hcon with h2
    exact PngError.noConfusion h2

/-- C8 amended: when the duplicate-key error does not fire first (the key is
absent, or `replace = true`), an insert whose encoded payload length exceeds
`u32::MAX` fails with SizeLimitError and the container serializes to bytes
identical to its pre-insert serialization; with an existing key and
`replace = false`, DuplicateKeyError takes precedence (and the container is
likewise unchanged). -/
theorem claim_C8 {compress : List Nat → List Nat} {p : Png}
    {key data : List Nat} {replace : Bool}
    (hprec : replace = true ∨ posOf (isFileWithKey key) p.chunks = none)
    (hbig : (encodeFile compress key data).length > 4294967295) :
    insertFile compress p key data replace = (.error .sizeLimit, p) ∧
    intoBytes (insertFile compress p key data replace).2 = intoBytes p := by
  have h := insertFile_size hprec hbig
  exact ⟨h, by rw [h]⟩

/-- Witness for C8: the oversized insert into the empty container. -/
theorem claim_C8_witness :
    insertFile bigCompress ⟨[], 8⟩ [97] [] false = (.error .sizeLimit, ⟨[], 8⟩) ∧
    intoBytes (insertFile bigCompress ⟨[], 8⟩ [97] [] false).2
      = intoBytes ⟨[], 8⟩ :=
  @claim_C8 bigCompress ⟨[], 8⟩ [97] [] false (Or.inr rfl)
    (by rw [encodeFile_bigCompress_length]; decide)

/-- C9: `get` returns an absent result exactly when either no file chunk's
key equals the requested key, or the first chunk whose key matches fails to
bincode-decode or to decompress; by its `Option` return type it propagates
no error in any of these cases. -/
theorem claim_C9 (decompress : List Nat → Option (List Nat)) (p : Png)
    (key : List Nat) :
    getFile decompress p key = none ↔
      ((∀ c ∈ p.chunks, isFileWithKey key c = false) ∨
        ∃ c, p.chunks.find? (isFileWithKey key) = some c ∧
          (decodeFile c.data = none ∨
            ∃ kd, decodeFile c.data = some kd ∧ decompress kd.2 = none)) := by
  rw [getFile]
  rcases hf : p.chunks.find? (isFileWithKey key) with _ | c
  · simp only []
    constructor
    · intro _
      left
      intro c hc
      have h2 := List.find?_eq_none.mp hf c hc
      simpa using h2
    · intro _
      trivial
  · simp only []
    have hmem : c ∈ p.chunks := List.mem_of_find?_eq_some hf
    have hpc : isFileWithKey key c = true := List.find?_some hf
    rcases hd : decodeFile c.data with _ | kd
    · simp only []
      constructor
      · intro _
        exact Or.inr ⟨c, rfl, Or.inl hd⟩
      · intro _
        trivial
    · obtain ⟨k1, d1⟩ := kd
      simp only []
      constructor
      · intro hnone
        exact Or.inr ⟨c, rfl, Or.inr ⟨(k1, d1), hd, hnone⟩⟩
      · intro hcase
        rcases hcase with hall | ⟨c2, hc2, hdec2⟩
        · rw [hall c hmem] at hpc
          exact Bool.noConfusion hpc
        · injection hc2 with hc2
          subst hc2
          rcases hdec2 with hdec2 | ⟨kd2, hkd2, hdc2⟩
          · rw [hd] at hdec2
            exact Option.noConfusion hdec2
          · rw [hd] at hkd2
            injection hkd2 with hkd2
            subst hkd2
            exact hdc2

/-- C10: the chunk invariant — stored length equals the payload length and
fits a `u32`, stored CRC equals CRC-32 of `tag ++ payload` and fits a `u32`,
the tag is 4 valid-UTF-8 bytes, the payload is bytes, and a file payload
decodes to its key (`ChunkWF`) — holds for every chunk of a parsed
container, is preserved by insert and remove, and lets the writer emit the
stored length and CRC without re-validation: serializing any container
satisfying it re-parses successfully to the same chunk sequence. -/
theorem claim_C10 :
    (∀ (b : List Nat) (png : Png), allBytes b → parse b = .ok png → PngWF png) ∧
    (∀ (compress : List Nat → List Nat) (p p2 : Png) (key data : List Nat)
      (replace : Bool), PngWF p → isValidUtf8 key = true →
      allBytes (compress data) →
      insertFile compress p key data replace = (.ok (), p2) → PngWF p2) ∧
    (∀ (p : Png) (key : List Nat), PngWF p → PngWF (removeFile p key).2) ∧
    (∀ p : Png, PngWF p →
      parse (intoBytes p) = .ok ⟨p.chunks, (intoBytes p).length⟩) :=
  ⟨fun _ _ hb h => (parse_sound hb h).2.1,
   fun _ _ _ _ _ _ hw hk hcb h => insertFile_wf hw hk hcb h,
   fun _ _ hw => removeFile_wf hw,
   fun _ hw => parse_complete hw⟩

set_option maxRecDepth 10000 in
/-- Witness for C10: the parsed `pngA` is well formed, stays well formed
through an insert and a remove, and its serialization re-parses. -/
theorem claim_C10_witness :
    PngWF pngA ∧
    PngWF (insertFile idCompress pngA [98] [7] false).2 ∧
    PngWF (removeFile pngA [97]).2 ∧
    parse (intoBytes pngA) = .ok ⟨pngA.chunks, (intoBytes pngA).length⟩ := by
  have hw : PngWF pngA := claim_C10.1 bufA pngA (by decide) rfl
  refine ⟨hw, ?_, claim_C10.2.2.1 pngA [97] hw, claim_C10.2.2.2 pngA hw⟩
  exact claim_C10.2.1 idCompress pngA _ [98] [7] false hw (by decide)
    (by decide) rfl

end PngFiles
